import Mathlib

/-!
# cfdlab: verification of `petsc/euler2d/fdweno.c`

A shallow embedding of the 2d Euler finite-difference WENO solver.

* Floating point (`double`, `PetscReal`) is read in exact arithmetic: every
  definition is generic over a linearly ordered field `K` (the reals are one
  instance, the rationals another, on which the definitions evaluate).
* `sqrt` (libm) is passed as a function `sqrt : K → K`.
* `gas_gamma`, `BC_LEFT`, `BC_RIGHT`, `BC_BOTTOM`, `BC_TOP` come from
  `isentropic.h`, which is not part of the sources; they are parameters.
* Arrays `u[j][i][d]` are functions `Int → Int → Fin 4 → K`.
* A local variable that is read before it is ever assigned is represented by
  an explicit argument holding its initial contents.
-/

set_option linter.unusedSectionVars false
set_option linter.unusedVariables false

namespace FDWeno

variable {K : Type} [LinearOrderedField K]

/-! ## Pointwise functions -/

/-- First smoothness indicator of `weno5` (stencil `um2, um1, u0`). -/
def weno5_beta1 (um2 um1 u0 : K) : K :=
  (13 / 12) * (um2 - 2 * um1 + u0) ^ 2 + (1 / 4) * (um2 - 4 * um1 + 3 * u0) ^ 2

/-- Second smoothness indicator of `weno5` (stencil `um1, u0, up1`). -/
def weno5_beta2 (um1 u0 up1 : K) : K :=
  (13 / 12) * (um1 - 2 * u0 + up1) ^ 2 + (1 / 4) * (um1 - up1) ^ 2

/-- Third smoothness indicator of `weno5` (stencil `u0, up1, up2`). -/
def weno5_beta3 (u0 up1 up2 : K) : K :=
  (13 / 12) * (u0 - 2 * up1 + up2) ^ 2 + (1 / 4) * (3 * u0 - 4 * up1 + up2) ^ 2

/-- The regulariser `eps = 1.0e-6` of `weno5`. -/
def weno5_eps : K := 1 / 1000000

/-- Unnormalised weight `w1 = gamma1 / pow(eps+beta1, 2)`, `gamma1 = 1/10`. -/
def weno5_w1 (um2 um1 u0 : K) : K :=
  (1 / 10) / (weno5_eps + weno5_beta1 um2 um1 u0) ^ 2

/-- Unnormalised weight `w2 = gamma2 / pow(eps+beta2, 2)`, `gamma2 = 3/5`. -/
def weno5_w2 (um1 u0 up1 : K) : K :=
  (3 / 5) / (weno5_eps + weno5_beta2 um1 u0 up1) ^ 2

/-- Unnormalised weight `w3 = gamma3 / pow(eps+beta3, 2)`, `gamma3 = 3/10`. -/
def weno5_w3 (u0 up1 up2 : K) : K :=
  (3 / 10) / (weno5_eps + weno5_beta3 u0 up1 up2) ^ 2

/-- Candidate `u1` of `weno5`. -/
def weno5_u1 (um2 um1 u0 : K) : K :=
  (1 / 3) * um2 - (7 / 6) * um1 + (11 / 6) * u0

/-- Candidate `u2` of `weno5`. -/
def weno5_u2 (um1 u0 up1 : K) : K :=
  -(1 / 6) * um1 + (5 / 6) * u0 + (1 / 3) * up1

/-- Candidate `u3` of `weno5`. -/
def weno5_u3 (u0 up1 up2 : K) : K :=
  (1 / 3) * u0 + (5 / 6) * up1 - (1 / 6) * up2

/-- Weno reconstruction: left value for the face between `u0` and `up1`. -/
def weno5 (um2 um1 u0 up1 up2 : K) : K :=
  (weno5_w1 um2 um1 u0 * weno5_u1 um2 um1 u0
    + weno5_w2 um1 u0 up1 * weno5_u2 um1 u0 up1
    + weno5_w3 u0 up1 up2 * weno5_u3 u0 up1 up2)
  / (weno5_w1 um2 um1 u0 + weno5_w2 um1 u0 up1 + weno5_w3 u0 up1 up2)

/-- Conserved to primitive variables. -/
def con2prim (gas_gamma : K) (Con : Fin 4 → K) : Fin 4 → K :=
  let p0 := Con 0
  let p1 := Con 1 / Con 0
  let p2 := Con 2 / Con 0
  ![p0, p1, p2, (Con 3 - (1 / 2) * p0 * (p1 ^ 2 + p2 ^ 2)) * (gas_gamma - 1)]

/-- Primitive to conserved variables. -/
def prim2con (gas_gamma : K) (Prim : Fin 4 → K) : Fin 4 → K :=
  ![Prim 0, Prim 0 * Prim 1, Prim 0 * Prim 2,
    (1 / 2) * Prim 0 * (Prim 1 ^ 2 + Prim 2 ^ 2) + Prim 3 / (gas_gamma - 1)]

/-- Max eigenvalue along x and y: the pair `(lambdax, lambday)`. -/
def compute_lambda (sqrt : K → K) (gas_gamma : K) (Con : Fin 4 → K) : K × K :=
  let vx := Con 1 / Con 0
  let vy := Con 2 / Con 0
  let p := (gas_gamma - 1) * (Con 3 - (1 / 2) * Con 0 * (vx * vx + vy * vy))
  let a := sqrt (gas_gamma * p / Con 0)
  (|vx| + a, |vy| + a)

/-- Local timestep. -/
def dt_local (sqrt : K → K) (gas_gamma dx dy : K) (Con : Fin 4 → K) : K :=
  let Prim := con2prim gas_gamma Con
  let a := sqrt (gas_gamma * Prim 3 / Prim 0)
  let sx := |Prim 1| + a
  let sy := |Prim 2| + a
  1 / (sx / dx + sy / dy)

/-- The physical flux computed inside `split_fluxes` (the local `flux`). -/
def split_fluxes_flux (gas_gamma : K) (U : Fin 4 → K) (nx ny : K) : Fin 4 → K :=
  let P := con2prim gas_gamma U
  let flux0 := U 1 * nx + U 2 * ny
  ![flux0, P 3 * nx + P 1 * flux0, P 3 * ny + P 2 * flux0,
    (U 3 + P 3) * (P 1 * nx + P 2 * ny)]

/-- Split fluxes along direction `(nx, ny)`: the pair `(fp, fm)`. -/
def split_fluxes (gas_gamma : K) (U : Fin 4 → K) (nx ny lambda : K) :
    (Fin 4 → K) × (Fin 4 → K) :=
  let flux := split_fluxes_flux gas_gamma U nx ny
  (fun i => (1 / 2) * (flux i + lambda * U i),
   fun i => (1 / 2) * (flux i - lambda * U i))

/-- The quadratic polynomial `c0 + c1 x + c2 x^2` used to state the
reconstruction properties of `weno5`. -/
def quadPoly (c0 c1 c2 x : K) : K := c0 + c1 * x + c2 * x ^ 2

/-- The physical flux of the specification,
`F = (ρ v_n, p n_x + ρ v_x v_n, p n_y + ρ v_y v_n, (E + p) v_n)` with
`(ρ, v_x, v_y, p) = con2prim U` and `v_n = v_x n_x + v_y n_y`. -/
def physicalFlux_spec (gas_gamma : K) (U : Fin 4 → K) (nx ny : K) : Fin 4 → K :=
  let P := con2prim gas_gamma U
  let vn := P 1 * nx + P 2 * ny
  ![P 0 * vn, P 3 * nx + P 0 * P 1 * vn, P 3 * ny + P 0 * P 2 * vn, (U 3 + P 3) * vn]

/-! ## Grid data and loops -/

/-- Boundary types, `enum bctype`. -/
inductive bctype where
  | wall
  | periodic
  | farfield
  | supersonic
  deriving DecidableEq

/-- The four boundary selections `BC_LEFT`, `BC_RIGHT`, `BC_BOTTOM`, `BC_TOP`
(defined in `isentropic.h`, which is not among the sources). -/
structure BoundaryConfig where
  BC_LEFT : bctype
  BC_RIGHT : bctype
  BC_BOTTOM : bctype
  BC_TOP : bctype

/-- What `DMDAGetInfo` and `DMDAGetCorners` return: the global grid size
`nx, ny` and the owned tile `[ibeg, ibeg+nlocx) × [jbeg, jbeg+nlocy)`. -/
structure Tile where
  nx : Int
  ny : Int
  ibeg : Int
  jbeg : Int
  nlocx : Nat
  nlocy : Nat

/-- A per-cell, per-variable array `a[j][i][d]`. -/
abbrev Grid (K : Type) := Int → Int → Fin 4 → K

/-- Stencil width, 3 on either side, for weno5. -/
def sw : Nat := 3

/-- The cell `(j, i)` is owned by the tile. -/
def Tile.owned (t : Tile) (j i : Int) : Prop :=
  t.jbeg ≤ j ∧ j < t.jbeg + t.nlocy ∧ t.ibeg ≤ i ∧ i < t.ibeg + t.nlocx

instance (t : Tile) (j i : Int) : Decidable (t.owned j i) := by
  unfold Tile.owned; infer_instance

/-- Assignment of the four components of cell `(j, i)`. -/
def setCell (a : Grid K) (j i : Int) (v : Fin 4 → K) : Grid K :=
  fun j' i' => if j' = j ∧ i' = i then v else a j' i'

/-- The loop `for (x = beg; x < beg + n; ++x) body`, threading the state. -/
def forRange {σ : Type} (beg : Int) (n : Nat) (body : Int → σ → σ) (s : σ) : σ :=
  (List.range n).foldl (fun s k => body (beg + (k : Int)) s) s

/-- The loop nest over the owned cells,
`for (j = jbeg; j < jbeg+nlocy; ++j) for (i = ibeg; i < ibeg+nlocx; ++i)`. -/
def forCells {σ : Type} (t : Tile) (body : Int → Int → σ → σ) (s : σ) : σ :=
  forRange t.jbeg t.nlocy (fun j s => forRange t.ibeg t.nlocx (fun i s => body j i s) s) s

/-- `PetscMax(a,b) = ((a)<(b)) ? (b) : (a)`. -/
def PetscMax (a b : K) : K := if a < b then b else a

/-- `PetscMin(a,b) = ((a)<(b)) ? (a) : (b)`. -/
def PetscMin (a b : K) : K := if a < b then a else b

/-- `MPI_Allreduce` with `MPI_MAX`: the local value combined with the values
contributed by the other processes (none when there is one process). -/
def MPI_Allreduce_MAX (loc : K) (others : List K) : K := others.foldl PetscMax loc

/-- "Set residual 0": lines 335-338. -/
def zeroResidual (t : Tile) (res : Grid K) : Grid K :=
  forCells t (fun j i res => setCell res j i (fun _ => 0)) res

/-- The wall ghost value for a left/right wall: `(u0, -u1, u2, u3)`. -/
def wallMirrorX (v : Fin 4 → K) : Fin 4 → K := ![v 0, -v 1, v 2, v 3]

/-- The wall ghost value for a bottom/top wall: `(u0, u1, -u2, u3)`. -/
def wallMirrorY (v : Fin 4 → K) : Fin 4 → K := ![v 0, v 1, -v 2, v 3]

/-- Left wall ghost fill, lines 344-361. -/
def fillLeft (t : Tile) (u : Grid K) : Grid K :=
  let i := t.ibeg - 1
  forRange t.jbeg t.nlocy (fun j u =>
    let u := setCell u j i (wallMirrorX (u j (i + 1)))
    let u := setCell u j (i - 1) (wallMirrorX (u j (i + 2)))
    setCell u j (i - 2) (wallMirrorX (u j (i + 3)))) u

/-- Right wall ghost fill, lines 372-389. -/
def fillRight (t : Tile) (u : Grid K) : Grid K :=
  let i := t.ibeg + t.nlocx
  forRange t.jbeg t.nlocy (fun j u =>
    let u := setCell u j i (wallMirrorX (u j (i - 1)))
    let u := setCell u j (i + 1) (wallMirrorX (u j (i - 2)))
    setCell u j (i + 2) (wallMirrorX (u j (i - 3)))) u

/-- Bottom wall ghost fill, lines 400-417. -/
def fillBottom (t : Tile) (u : Grid K) : Grid K :=
  let j := t.jbeg - 1
  forRange t.ibeg t.nlocx (fun i u =>
    let u := setCell u j i (wallMirrorY (u (j + 1) i))
    let u := setCell u (j - 1) i (wallMirrorY (u (j + 2) i))
    setCell u (j - 2) i (wallMirrorY (u (j + 3) i))) u

/-- Top wall ghost fill, lines 428-445. -/
def fillTop (t : Tile) (u : Grid K) : Grid K :=
  let j := t.jbeg + t.nlocy
  forRange t.ibeg t.nlocx (fun i u =>
    let u := setCell u j i (wallMirrorY (u (j - 1) i))
    let u := setCell u (j + 1) i (wallMirrorY (u (j - 2) i))
    setCell u (j + 2) i (wallMirrorY (u (j - 3) i))) u

/-- Left side, lines 342-367. -/
def bcLeft (bc : BoundaryConfig) (t : Tile) (u : Grid K) : Except String (Grid K) :=
  if t.ibeg = 0 ∧ bc.BC_LEFT = bctype.wall then .ok (fillLeft t u)
  else if t.ibeg = 0 ∧ bc.BC_LEFT = bctype.farfield then .error "Not implemented"
  else .ok u

/-- Right side, lines 370-395. -/
def bcRight (bc : BoundaryConfig) (t : Tile) (u : Grid K) : Except String (Grid K) :=
  if t.ibeg + t.nlocx = t.nx ∧ bc.BC_RIGHT = bctype.wall then .ok (fillRight t u)
  else if bc.BC_RIGHT = bctype.farfield then .error "Not implemented"
  else .ok u

/-- Bottom side, lines 398-423. -/
def bcBottom (bc : BoundaryConfig) (t : Tile) (u : Grid K) : Except String (Grid K) :=
  if t.jbeg = 0 ∧ bc.BC_BOTTOM = bctype.wall then .ok (fillBottom t u)
  else if bc.BC_BOTTOM = bctype.farfield then .error "Not implemented"
  else .ok u

/-- Top side, lines 426-451. -/
def bcTop (bc : BoundaryConfig) (t : Tile) (u : Grid K) : Except String (Grid K) :=
  if t.jbeg + t.nlocy = t.ny ∧ bc.BC_TOP = bctype.wall then .ok (fillTop t u)
  else if bc.BC_TOP = bctype.farfield then .error "Not implemented"
  else .ok u

/-- The boundary step of `RHSFunction` (lines 340-451): the four sides in
order; `SETERRQ` returns from the function with the error. -/
def boundaryStep (bc : BoundaryConfig) (t : Tile) (u : Grid K) : Except String (Grid K) :=
  match bcLeft bc t u with
  | .error e => .error e
  | .ok u1 =>
    match bcRight bc t u1 with
    | .error e => .error e
    | .ok u2 =>
      match bcBottom bc t u2 with
      | .error e => .error e
      | .ok u3 => bcTop bc t u3

/-- The local wave-speed loop, lines 454-461. `lambdax0` and `lambday0` are the
contents of the locals `lambdax`, `lambday` when the loop starts: the source
declares them without an initialiser (line 315) and does not assign them
before the loop. The result is the pair `(lamx, lamy)` handed to
`MPI_Allreduce`. -/
def localLambda (sqrt : K → K) (gas_gamma : K) (t : Tile) (u : Grid K)
    (lambdax0 lambday0 : K) : K × K :=
  forCells t (fun j i s =>
    let l := compute_lambda sqrt gas_gamma (u j i)
    (PetscMax s.1 l.1, PetscMax s.2 l.2)) (lambdax0, lambday0)

/-- "Compute x-split fluxes", lines 466-470: the pair `(fxp, fxm)`. -/
def fillSplitX (gas_gamma : K) (t : Tile) (u : Grid K) (lambdax : K)
    (f : Grid K × Grid K) : Grid K × Grid K :=
  forRange t.jbeg t.nlocy (fun j f =>
    forRange (t.ibeg - sw) (t.nlocx + 2 * sw) (fun i f =>
      let s := split_fluxes gas_gamma (u j i) 1 0 lambdax
      (setCell f.1 j i s.1, setCell f.2 j i s.2)) f) f

/-- "Compute y-split fluxes", lines 473-477: the pair `(fyp, fym)`. -/
def fillSplitY (gas_gamma : K) (t : Tile) (u : Grid K) (lambday : K)
    (f : Grid K × Grid K) : Grid K × Grid K :=
  forRange (t.jbeg - sw) (t.nlocy + 2 * sw) (fun j f =>
    forRange t.ibeg t.nlocx (fun i f =>
      let s := split_fluxes gas_gamma (u j i) 0 1 lambday
      (setCell f.1 j i s.1, setCell f.2 j i s.2)) f) f

/-- `UL` at the x-face between `i-1` and `i`, line 490. -/
def UL_x (fxp : Grid K) (j i : Int) : Fin 4 → K := fun d =>
  weno5 (fxp j (i - 3) d) (fxp j (i - 2) d) (fxp j (i - 1) d) (fxp j i d) (fxp j (i + 1) d)

/-- `UR` at the x-face between `i-1` and `i`, line 491. -/
def UR_x (fxm : Grid K) (j i : Int) : Fin 4 → K := fun d =>
  weno5 (fxm j (i + 2) d) (fxm j (i + 1) d) (fxm j i d) (fxm j (i - 1) d) (fxm j (i - 2) d)

/-- `UL` at the y-face between `j-1` and `j`, line 520. -/
def UL_y (fyp : Grid K) (j i : Int) : Fin 4 → K := fun d =>
  weno5 (fyp (j - 3) i d) (fyp (j - 2) i d) (fyp (j - 1) i d) (fyp j i d) (fyp (j + 1) i d)

/-- `UR` at the y-face between `j-1` and `j`, line 521. -/
def UR_y (fym : Grid K) (j i : Int) : Fin 4 → K := fun d =>
  weno5 (fym (j + 2) i d) (fym (j + 1) i d) (fym j i d) (fym (j - 1) i d) (fym (j - 2) i d)

/-- One x-face, lines 487-510. `flux j i` is the content of the local array
`flux` when the face is visited. `UL` and `UR` are computed and not read. -/
def xFaceStep (dy : K) (t : Tile) (fxp fxm : Grid K) (flux : Int → Int → Fin 4 → K)
    (j i : Int) (res : Grid K) : Grid K :=
  let _UL := UL_x fxp j i
  let _UR := UR_x fxm j i
  if i = t.ibeg then
    setCell res j i (fun d => res j i d - dy * flux j i d)
  else if i = t.ibeg + t.nlocx then
    setCell res j (i - 1) (fun d => res j (i - 1) d + dy * flux j i d)
  else
    let res1 := setCell res j i (fun d => res j i d - dy * flux j i d)
    setCell res1 j (i - 1) (fun d => res1 j (i - 1) d + dy * flux j i d)

/-- One y-face, lines 517-540. -/
def yFaceStep (dx : K) (t : Tile) (fyp fym : Grid K) (flux : Int → Int → Fin 4 → K)
    (j i : Int) (res : Grid K) : Grid K :=
  let _UL := UL_y fyp j i
  let _UR := UR_y fym j i
  if j = t.jbeg then
    setCell res j i (fun d => res j i d - dx * flux j i d)
  else if j = t.jbeg + t.nlocy then
    setCell res (j - 1) i (fun d => res (j - 1) i d + dx * flux j i d)
  else
    let res1 := setCell res j i (fun d => res j i d - dx * flux j i d)
    setCell res1 (j - 1) i (fun d => res1 (j - 1) i d + dx * flux j i d)

/-- "x fluxes", lines 480-511. -/
def xFluxLoop (dy : K) (t : Tile) (fxp fxm : Grid K) (flux : Int → Int → Fin 4 → K)
    (res : Grid K) : Grid K :=
  forRange t.jbeg t.nlocy (fun j res =>
    forRange t.ibeg (t.nlocx + 1) (fun i res => xFaceStep dy t fxp fxm flux j i res) res) res

/-- "y fluxes", lines 514-541. -/
def yFluxLoop (dx : K) (t : Tile) (fyp fym : Grid K) (flux : Int → Int → Fin 4 → K)
    (res : Grid K) : Grid K :=
  forRange t.jbeg (t.nlocy + 1) (fun j res =>
    forRange t.ibeg t.nlocx (fun i res => yFaceStep dx t fyp fym flux j i res) res) res

/-- The final scaling `res[j][i][d] *= -lam`, `lam = 1/(dx*dy)`, lines 543-547. -/
def scaleResidual (dx dy : K) (t : Tile) (res : Grid K) : Grid K :=
  let lam := 1 / (dx * dy)
  forCells t (fun j i res => setCell res j i (fun d => res j i d * -lam)) res

/-- Flux accumulation, lines 333-338 and 479-548: zero the residual, visit the
x-faces, visit the y-faces, scale. `fluxX j i` and `fluxY j i` are the contents
of the local array `flux` when the x-face, respectively y-face, `(j, i)` is
visited. -/
def assembleResidual (dx dy : K) (t : Tile) (fx fy : Grid K × Grid K)
    (fluxX fluxY : Int → Int → Fin 4 → K) (R : Grid K) : Grid K :=
  scaleResidual dx dy t
    (yFluxLoop dx t fy.1 fy.2 fluxY (xFluxLoop dy t fx.1 fx.2 fluxX (zeroResidual t R)))

/-- Contents of the scratch storage when `RHSFunction` is entered: the locals
`lambdax`, `lambday`, `flux` (declared at line 315, never initialised), and
the split-flux vectors of `AppCtx` with whatever the previous call left. -/
structure Scratch (K : Type) where
  lambdax0 : K
  lambday0 : K
  flux0 : Fin 4 → K
  fx : Grid K × Grid K
  fy : Grid K × Grid K

/-- The rhs function in `du/dt = R(t,u)`, lines 303-560. `u` is the local array
after the halo exchange, `R` the residual vector on entry, `otherLamx` and
`otherLamy` the wave speeds the other processes contribute to the two
reductions. The source never assigns `flux`, so every face reads `flux0`. -/
def RHSFunction (bc : BoundaryConfig) (sqrt : K → K) (gas_gamma dx dy : K) (t : Tile)
    (sc : Scratch K) (otherLamx otherLamy : List K) (R u : Grid K) :
    Except String (Grid K) :=
  match boundaryStep bc t u with
  | .error e => .error e
  | .ok u1 =>
    let lam := localLambda sqrt gas_gamma t u1 sc.lambdax0 sc.lambday0
    let lambdax := MPI_Allreduce_MAX lam.1 otherLamx
    let lambday := MPI_Allreduce_MAX lam.2 otherLamy
    let fx := fillSplitX gas_gamma t u1 lambdax sc.fx
    let fy := fillSplitY gas_gamma t u1 lambday sc.fy
    .ok (assembleResidual dx dy t fx fy (fun _ _ => sc.flux0) (fun _ _ => sc.flux0) R)

/-- The array after the four ghost fills when no side raises the error: each
side is filled when its `wall` branch is taken and left alone otherwise. -/
def ghostFill (bc : BoundaryConfig) (t : Tile) (u : Grid K) : Grid K :=
  let u1 := if t.ibeg = 0 ∧ bc.BC_LEFT = bctype.wall then fillLeft t u else u
  let u2 := if t.ibeg + t.nlocx = t.nx ∧ bc.BC_RIGHT = bctype.wall then fillRight t u1 else u1
  let u3 := if t.jbeg = 0 ∧ bc.BC_BOTTOM = bctype.wall then fillBottom t u2 else u2
  if t.jbeg + t.nlocy = t.ny ∧ bc.BC_TOP = bctype.wall then fillTop t u3 else u3

/-- The condition under which the boundary step raises "Not implemented",
read off the four `else if` tests of lines 364, 392, 420 and 448. -/
def farfieldRaised (bc : BoundaryConfig) (t : Tile) : Prop :=
  (t.ibeg = 0 ∧ bc.BC_LEFT = bctype.farfield) ∨ bc.BC_RIGHT = bctype.farfield
    ∨ bc.BC_BOTTOM = bctype.farfield ∨ bc.BC_TOP = bctype.farfield

instance (bc : BoundaryConfig) (t : Tile) : Decidable (farfieldRaised bc t) := by
  unfold farfieldRaised; infer_instance

/-- Wall ghost relation of the specification for a left or right wall: same
density and total energy, same tangential (y) velocity, negated normal (x)
velocity, with velocity = momentum / density. -/
def wallGhostX_spec (g c : Fin 4 → K) : Prop :=
  g 0 = c 0 ∧ g 3 = c 3 ∧ g 2 / g 0 = c 2 / c 0 ∧ g 1 / g 0 = -(c 1 / c 0)

/-- Wall ghost relation of the specification for a bottom or top wall: same
density and total energy, same tangential (x) velocity, negated normal (y)
velocity. -/
def wallGhostY_spec (g c : Fin 4 → K) : Prop :=
  g 0 = c 0 ∧ g 3 = c 3 ∧ g 1 / g 0 = c 1 / c 0 ∧ g 2 / g 0 = -(c 2 / c 0)

/-- A 3 x 3 tile covering a 3 x 3 grid. -/
def tile3x3 : Tile := ⟨3, 3, 0, 0, 3, 3⟩

/-- Walls on the four sides. -/
def allWalls : BoundaryConfig := ⟨bctype.wall, bctype.wall, bctype.wall, bctype.wall⟩

/-- A sample state array: density `1`, momentum `(i, j)`, energy `10`. -/
def sampleState : Grid ℚ := fun j i => ![1, (i : ℚ), (j : ℚ), 10]

/-- The tile `[3,6) x [3,6)` in the middle of a 9 x 9 grid. -/
def tileMid : Tile := ⟨9, 9, 3, 3, 3, 3⟩

/-- Periodic on the four sides. -/
def allPeriodic : BoundaryConfig :=
  ⟨bctype.periodic, bctype.periodic, bctype.periodic, bctype.periodic⟩

/-- A state of period 3 in both directions: density `1 + (i mod 3)`, momentum
`(1, j mod 3)`, energy `10`. -/
def periodicState (K : Type) [LinearOrderedField K] : Grid K :=
  fun j i => ![1 + ((i % 3 : Int) : K), 1, ((j % 3 : Int) : K), 10]

/-- A state at rest whose density and energy grow linearly with the column:
`(10 + i, 0, 0, 10 + i)`. -/
def rampState (K : Type) [LinearOrderedField K] : Grid K :=
  fun _ i => ![10 + (i : K), 0, 0, 10 + (i : K)]

/-- Sum of component `d` of an array over the owned cells of the tile. -/
def ownedSum (t : Tile) (res : Grid K) (d : Fin 4) : K :=
  ∑ k in Finset.range t.nlocy, ∑ l in Finset.range t.nlocx,
    res (t.jbeg + (k : Int)) (t.ibeg + (l : Int)) d

/-- Net flux through the boundary faces of the tile: `dy` times the x-face
flux on the right edge minus the left edge, summed over the owned rows, plus
`dx` times the y-face flux on the top edge minus the bottom edge, summed over
the owned columns. -/
def boundaryNetFlux (dx dy : K) (t : Tile) (fluxX fluxY : Int → Int → Fin 4 → K)
    (d : Fin 4) : K :=
  (∑ k in Finset.range t.nlocy,
      dy * (fluxX (t.jbeg + (k : Int)) (t.ibeg + (t.nlocx : Int)) d
        - fluxX (t.jbeg + (k : Int)) t.ibeg d))
  + (∑ l in Finset.range t.nlocx,
      dx * (fluxY (t.jbeg + (t.nlocy : Int)) (t.ibeg + (l : Int)) d
        - fluxY t.jbeg (t.ibeg + (l : Int)) d))

/-! ## Time-step control -/

/-- `PetscAbs(a) = ((a) < 0) ? -(a) : (a)`. -/
def PetscAbs (a : K) : K := if a < 0 then -a else a

/-- `MPI_Allreduce` with `MPI_MIN`: the local value combined with the values
contributed by the other processes (none when there is one process). -/
def MPI_Allreduce_MIN (loc : K) (others : List K) : K := others.foldl PetscMin loc

/-- The local minimum loop of `Monitor`, lines 592-597: `dtlocal` starts at
`1.0e20`. -/
def monitorLocalMin (sqrt : K → K) (gas_gamma dx dy : K) (t : Tile) (u : Grid K) : K :=
  forCells t (fun j i s => PetscMin s (dt_local sqrt gas_gamma dx dy (u j i))) (10 ^ 20)

/-- The function called after every time step, lines 563-607. The result is the
argument of `TSSetTimeStep` when the call is reached and `none` when the
function returns without setting a step. Printing and `savesol` (file output)
are left out. `others` are the local minima the other processes contribute to
the reduction. -/
def Monitor (sqrt : K → K) (gas_gamma dx dy cfl Tf : K) (t : Tile) (others : List K)
    (step : Int) (time : K) (u : Grid K) : Option K :=
  if step < 0 then none
  else if PetscAbs (time - Tf) < 1 / 10 ^ 13 then none
  else if cfl > 0 then
    let dtlocal := monitorLocalMin sqrt gas_gamma dx dy t u
    let dtglobal := MPI_Allreduce_MIN dtlocal others
    let dtglobal := dtglobal * cfl
    let dtglobal := if time + dtglobal > Tf then Tf - time else dtglobal
    some dtglobal
  else none

/-- The conserved initial state of cell `(j, i)`, lines 244-248. `xmin`, `ymin`
and `initcond` come from `isentropic.h`. -/
def initialCell (gas_gamma xmin ymin dx dy : K) (initcond : K → K → Fin 4 → K)
    (j i : Int) : Fin 4 → K :=
  let x := xmin + (i : K) * dx + (1 / 2) * dx
  let y := ymin + (j : K) * dy + (1 / 2) * dy
  prim2con gas_gamma (initcond x y)

/-- The initialisation loop of `main`, lines 241-250: the solution array and the
running `dtlocal`, which line 174 starts at `1.0e-20`. -/
def mainInitLoop (sqrt : K → K) (gas_gamma xmin ymin dx dy : K)
    (initcond : K → K → Fin 4 → K) (t : Tile) (u : Grid K) : Grid K × K :=
  forCells t (fun j i s =>
    (setCell s.1 j i (initialCell gas_gamma xmin ymin dx dy initcond j i),
     PetscMin s.2
      (dt_local sqrt gas_gamma dx dy (initialCell gas_gamma xmin ymin dx dy initcond j i))))
    (u, 1 / 10 ^ 20)

/-- The choice of the initial time step in `main`, lines 253-268: the value of
`ctx.dt` with which time stepping starts, or `none` when `main` returns before
any stepping. `cfl` and `dt` are the option values (default `-1`). -/
def mainStepPolicy (cfl dt dtglobal : K) : Option K :=
  if cfl > 0 then some (cfl * dtglobal)
  else if dt > 0 then some dt
  else none

/-- The initial time step of `main`, lines 239-268. -/
def mainInitialStep (sqrt : K → K) (gas_gamma xmin ymin dx dy : K)
    (initcond : K → K → Fin 4 → K) (t : Tile) (u : Grid K) (others : List K)
    (cfl dt : K) : Option K :=
  let dtlocal := (mainInitLoop sqrt gas_gamma xmin ymin dx dy initcond t u).2
  let dtglobal := MPI_Allreduce_MIN dtlocal others
  mainStepPolicy cfl dt dtglobal

/-- The wave speeds of the specification: `a = sqrt(γ p / ρ)`, `sx = |vx| + a`,
`sy = |vy| + a` with `(ρ, vx, vy, p) = con2prim U`. -/
def localSpeeds_spec (sqrt : K → K) (gas_gamma : K) (U : Fin 4 → K) : K × K :=
  let P := con2prim gas_gamma U
  let a := sqrt (gas_gamma * P 3 / P 0)
  (|P 1| + a, |P 2| + a)

/-- The average of `c0 + c1 x + c2 x^2` over the unit cell centred at `k`,
`c0 + c1 k + c2 (k^2 + 1/12)`. -/
def quadCellAverage (c0 c1 c2 k : K) : K := c0 + c1 * k + c2 * (k ^ 2 + 1 / 12)

/-- The fifth-order upwind-biased linear reconstruction. -/
def linear5_spec (um2 um1 u0 up1 up2 : K) : K :=
  (2 * um2 - 13 * um1 + 47 * u0 + 27 * up1 - 3 * up2) / 60

/-- The 1 x 1 tile covering a 1 x 1 grid. -/
def tile1x1 : Tile := ⟨1, 1, 0, 0, 1, 1⟩

/-- The cell `(j, i)` lies in the halo-extended tile (halo width `sw`). -/
def Tile.inHalo (t : Tile) (j i : Int) : Prop :=
  (t.jbeg - sw ≤ j ∧ j < t.jbeg + t.nlocy + sw) ∧ (t.ibeg - sw ≤ i ∧ i < t.ibeg + t.nlocx + sw)

/-! ## Theorems -/

theorem weno5_beta1_nonneg (a b c : K) : 0 ≤ weno5_beta1 a b c := by
  unfold weno5_beta1; positivity

theorem weno5_beta2_nonneg (a b c : K) : 0 ≤ weno5_beta2 a b c := by
  unfold weno5_beta2; positivity

theorem weno5_beta3_nonneg (a b c : K) : 0 ≤ weno5_beta3 a b c := by
  unfold weno5_beta3; positivity

theorem weno5_eps_pos : (0 : K) < weno5_eps := by
  unfold weno5_eps; positivity

theorem weno5_w1_pos (a b c : K) : 0 < weno5_w1 a b c := by
  have h := weno5_beta1_nonneg a b c
  have e := weno5_eps_pos (K := K)
  unfold weno5_w1; positivity

theorem weno5_w2_pos (a b c : K) : 0 < weno5_w2 a b c := by
  have h := weno5_beta2_nonneg a b c
  have e := weno5_eps_pos (K := K)
  unfold weno5_w2; positivity

theorem weno5_w3_pos (a b c : K) : 0 < weno5_w3 a b c := by
  have h := weno5_beta3_nonneg a b c
  have e := weno5_eps_pos (K := K)
  unfold weno5_w3; positivity

/-- When the three candidates agree, `weno5` returns their common value. -/
theorem weno5_of_candidates_eq (um2 um1 u0 up1 up2 v : K)
    (h1 : weno5_u1 um2 um1 u0 = v) (h2 : weno5_u2 um1 u0 up1 = v)
    (h3 : weno5_u3 u0 up1 up2 = v) : weno5 um2 um1 u0 up1 up2 = v := by
  have p1 := weno5_w1_pos um2 um1 u0
  have p2 := weno5_w2_pos um1 u0 up1
  have p3 := weno5_w3_pos u0 up1 up2
  unfold weno5
  rw [h1, h2, h3, div_eq_iff (by positivity)]
  ring

/-- C3: `weno5` is exact on affine data: on the samples `a-2b, a-b, a, a+b, a+2b`
it returns `a + b/2`, the affine function's value at the face. -/
theorem weno5_affine_exact (a b : K) :
    weno5 (a - 2 * b) (a - b) a (a + b) (a + 2 * b) = a + b / 2 := by
  apply weno5_of_candidates_eq
  · unfold weno5_u1; ring
  · unfold weno5_u2; ring
  · unfold weno5_u3; ring

/-- On point samples of a quadratic at `-2, -1, 0, 1, 2` every candidate of
`weno5` equals `p(1/2) - c2/12`. -/
theorem weno5_quadratic_samples (c0 c1 c2 : K) :
    weno5 (quadPoly c0 c1 c2 (-2)) (quadPoly c0 c1 c2 (-1)) (quadPoly c0 c1 c2 0)
      (quadPoly c0 c1 c2 1) (quadPoly c0 c1 c2 2)
      = quadPoly c0 c1 c2 (1 / 2) - c2 / 12 := by
  apply weno5_of_candidates_eq
  · unfold weno5_u1 quadPoly; ring
  · unfold weno5_u2 quadPoly; ring
  · unfold weno5_u3 quadPoly; ring

/-- C4 (counterexample): for `p(x) = x^2` sampled at `-2, -1, 0, 1, 2`, `weno5`
returns `1/6`, not `p(1/2) = 1/4`. -/
theorem weno5_quadratic_point_values_not_exact :
    weno5 (quadPoly (0 : ℚ) 0 1 (-2)) (quadPoly (0 : ℚ) 0 1 (-1)) (quadPoly (0 : ℚ) 0 1 0)
      (quadPoly (0 : ℚ) 0 1 1) (quadPoly (0 : ℚ) 0 1 2) = 1 / 6
    ∧ quadPoly (0 : ℚ) 0 1 (1 / 2) = 1 / 4
    ∧ weno5 (quadPoly (0 : ℚ) 0 1 (-2)) (quadPoly (0 : ℚ) 0 1 (-1)) (quadPoly (0 : ℚ) 0 1 0)
      (quadPoly (0 : ℚ) 0 1 1) (quadPoly (0 : ℚ) 0 1 2) ≠ quadPoly (0 : ℚ) 0 1 (1 / 2) := by
  have h := weno5_quadratic_samples (0 : ℚ) 0 1
  have q : quadPoly (0 : ℚ) 0 1 (1 / 2) = 1 / 4 := by unfold quadPoly; norm_num
  refine ⟨?_, q, ?_⟩
  · rw [h, q]; norm_num
  · rw [h, q]; norm_num

/-- C4 (amended): on point samples of the quadratic `p(x) = c0 + c1 x + c2 x^2`
at the cell centres `-2, -1, 0, 1, 2`, `weno5` returns `p(1/2) - c2/12`; it is
the exact face value `p(1/2)` exactly when `c2 = 0`. -/
theorem weno5_quadratic_point_values (c0 c1 c2 : K) :
    weno5 (quadPoly c0 c1 c2 (-2)) (quadPoly c0 c1 c2 (-1)) (quadPoly c0 c1 c2 0)
      (quadPoly c0 c1 c2 1) (quadPoly c0 c1 c2 2)
      = quadPoly c0 c1 c2 (1 / 2) - c2 / 12
    ∧ (weno5 (quadPoly c0 c1 c2 (-2)) (quadPoly c0 c1 c2 (-1)) (quadPoly c0 c1 c2 0)
        (quadPoly c0 c1 c2 1) (quadPoly c0 c1 c2 2) = quadPoly c0 c1 c2 (1 / 2) ↔ c2 = 0) := by
  have h := weno5_quadratic_samples c0 c1 c2
  refine ⟨h, ?_⟩
  rw [h]
  constructor
  · intro e
    have : c2 / 12 = 0 := by linarith
    simpa using this
  · intro e
    simp [e]

/-- C5: conserved → primitive → conserved is the identity when the density is
positive and `gas_gamma ≠ 1`. -/
theorem prim2con_con2prim (gas_gamma : K) (U : Fin 4 → K) (hrho : 0 < U 0)
    (hg : gas_gamma ≠ 1) : prim2con gas_gamma (con2prim gas_gamma U) = U := by
  have h0 : U 0 ≠ 0 := ne_of_gt hrho
  have h1 : gas_gamma - 1 ≠ 0 := sub_ne_zero.mpr hg
  funext d
  fin_cases d
  · simp [prim2con, con2prim]
  · simp [prim2con, con2prim]; field_simp
  · simp [prim2con, con2prim]; field_simp
  · simp [prim2con, con2prim]; field_simp; ring

/-- A concrete instance: the state `(1, 2, 3, 10)` with `gas_gamma = 7/5`. -/
theorem prim2con_con2prim_witness :
    (0 : ℚ) < (![1, 2, 3, 10] : Fin 4 → ℚ) 0 ∧ (7 / 5 : ℚ) ≠ 1
    ∧ prim2con (7 / 5 : ℚ) (con2prim (7 / 5) ![1, 2, 3, 10]) = ![1, 2, 3, 10] :=
  ⟨by norm_num, by norm_num, prim2con_con2prim (7 / 5 : ℚ) ![1, 2, 3, 10] (by norm_num) (by norm_num)⟩

/-- C6: primitive → conserved → primitive is the identity when the density is
positive and `gas_gamma ≠ 1`. -/
theorem con2prim_prim2con (gas_gamma : K) (P : Fin 4 → K) (hrho : 0 < P 0)
    (hg : gas_gamma ≠ 1) : con2prim gas_gamma (prim2con gas_gamma P) = P := by
  have h0 : P 0 ≠ 0 := ne_of_gt hrho
  have h1 : gas_gamma - 1 ≠ 0 := sub_ne_zero.mpr hg
  funext d
  fin_cases d
  · simp [prim2con, con2prim]
  · simp [prim2con, con2prim]; field_simp
  · simp [prim2con, con2prim]; field_simp
  · simp [prim2con, con2prim]; field_simp; ring

/-- A concrete instance: the primitive state `(1, 2, 3, 1)` with `gas_gamma = 7/5`. -/
theorem con2prim_prim2con_witness :
    (0 : ℚ) < (![1, 2, 3, 1] : Fin 4 → ℚ) 0 ∧ (7 / 5 : ℚ) ≠ 1
    ∧ con2prim (7 / 5 : ℚ) (prim2con (7 / 5) ![1, 2, 3, 1]) = ![1, 2, 3, 1] :=
  ⟨by norm_num, by norm_num, con2prim_prim2con (7 / 5 : ℚ) ![1, 2, 3, 1] (by norm_num) (by norm_num)⟩

/-- The `flux` of `split_fluxes` is the specification's physical flux when the
density is not zero. -/
theorem split_fluxes_flux_eq_spec (gas_gamma : K) (U : Fin 4 → K) (nx ny : K)
    (hrho : U 0 ≠ 0) :
    split_fluxes_flux gas_gamma U nx ny = physicalFlux_spec gas_gamma U nx ny := by
  funext d
  fin_cases d
  · simp [split_fluxes_flux, physicalFlux_spec, con2prim]; field_simp
  · simp [split_fluxes_flux, physicalFlux_spec, con2prim]; field_simp
  · simp [split_fluxes_flux, physicalFlux_spec, con2prim]; field_simp
  · simp [split_fluxes_flux, physicalFlux_spec, con2prim]

/-- C7: for a state with non-zero density, `split_fluxes` returns
`fp = (F + lambda U)/2` and `fm = (F - lambda U)/2` with `F` the physical flux of
the specification; hence `fp + fm = F` and `fp - fm = lambda U`. -/
theorem split_fluxes_spec (gas_gamma : K) (U : Fin 4 → K) (nx ny lambda : K)
    (hrho : U 0 ≠ 0) :
    (∀ d, (split_fluxes gas_gamma U nx ny lambda).1 d
        = (physicalFlux_spec gas_gamma U nx ny d + lambda * U d) / 2)
    ∧ (∀ d, (split_fluxes gas_gamma U nx ny lambda).2 d
        = (physicalFlux_spec gas_gamma U nx ny d - lambda * U d) / 2)
    ∧ (∀ d, (split_fluxes gas_gamma U nx ny lambda).1 d
          + (split_fluxes gas_gamma U nx ny lambda).2 d
        = physicalFlux_spec gas_gamma U nx ny d)
    ∧ (∀ d, (split_fluxes gas_gamma U nx ny lambda).1 d
          - (split_fluxes gas_gamma U nx ny lambda).2 d
        = lambda * U d) := by
  have h := split_fluxes_flux_eq_spec gas_gamma U nx ny hrho
  refine ⟨?_, ?_, ?_, ?_⟩ <;> intro d <;> simp only [split_fluxes, h] <;> ring

/-- A concrete instance: the state `(2, 4, 6, 20)`, direction `(1, 0)`, `lambda = 3`. -/
theorem split_fluxes_spec_witness :
    (![2, 4, 6, 20] : Fin 4 → ℚ) 0 ≠ 0
    ∧ (∀ d, (split_fluxes (7 / 5 : ℚ) ![2, 4, 6, 20] 1 0 3).1 d
        = (physicalFlux_spec (7 / 5 : ℚ) ![2, 4, 6, 20] 1 0 d + 3 * (![2, 4, 6, 20] : Fin 4 → ℚ) d) / 2) :=
  ⟨by norm_num, (split_fluxes_spec (7 / 5 : ℚ) ![2, 4, 6, 20] 1 0 3 (by norm_num)).1⟩

/-! ### Loops -/

theorem forRange_zero {σ : Type} (beg : Int) (body : Int → σ → σ) (s : σ) :
    forRange beg 0 body s = s := rfl

theorem forRange_succ {σ : Type} (beg : Int) (n : Nat) (body : Int → σ → σ) (s : σ) :
    forRange beg (n + 1) body s = body (beg + (n : Int)) (forRange beg n body s) := by
  simp [forRange, List.range_succ]

/-- Loop invariant rule for `forRange`. -/
theorem forRange_invariant {σ : Type} (P : Nat → σ → Prop) (beg : Int) (n : Nat)
    (body : Int → σ → σ) (s : σ) (h0 : P 0 s)
    (hstep : ∀ k s', k < n → P k s' → P (k + 1) (body (beg + (k : Int)) s')) :
    P n (forRange beg n body s) := by
  induction n with
  | zero => exact h0
  | succ m ih =>
    rw [forRange_succ]
    exact hstep m _ (Nat.lt_succ_self m)
      (ih (fun k s' hk hP => hstep k s' (Nat.lt_succ_of_lt hk) hP))

/-- Closed form of a loop over rows that writes three cells of the row from
three other cells of the same row. -/
theorem rowFill_apply (jbeg : Int) (n : Nat) (w1 w2 w3 r1 r2 r3 : Int)
    (M : (Fin 4 → K) → Fin 4 → K) (u : Grid K)
    (h11 : r1 ≠ w1) (h21 : r2 ≠ w1) (h22 : r2 ≠ w2) (h31 : r3 ≠ w1) (h32 : r3 ≠ w2)
    (h33 : r3 ≠ w3) (h12 : r1 ≠ w2) (h13 : r1 ≠ w3) (h23 : r2 ≠ w3)
    (d12 : w1 ≠ w2) (d13 : w1 ≠ w3) (d23 : w2 ≠ w3) (j i : Int) :
    forRange jbeg n (fun j u =>
      let u := setCell u j w1 (M (u j r1))
      let u := setCell u j w2 (M (u j r2))
      setCell u j w3 (M (u j r3))) u j i =
      if jbeg ≤ j ∧ j < jbeg + n then
        (if i = w1 then M (u j r1) else if i = w2 then M (u j r2)
         else if i = w3 then M (u j r3) else u j i)
      else u j i := by
  have key := forRange_invariant
    (fun (k : Nat) (s : Grid K) => ∀ j i : Int, s j i =
      if jbeg ≤ j ∧ j < jbeg + k then
        (if i = w1 then M (u j r1) else if i = w2 then M (u j r2)
         else if i = w3 then M (u j r3) else u j i)
      else u j i)
    jbeg n
    (fun j u =>
      let u := setCell u j w1 (M (u j r1))
      let u := setCell u j w2 (M (u j r2))
      setCell u j w3 (M (u j r3))) u
    (by intro j i; rw [if_neg]; push_cast; omega)
    (by
      intro k s' _ ih j i
      have e : ∀ r, r ≠ w1 → r ≠ w2 → r ≠ w3 → s' (jbeg + k) r = u (jbeg + k) r := by
        intro r a b c
        rw [ih]; simp [a, b, c]
      simp only [setCell, true_and, h21, h31, h32, if_false, e r1 h11 h12 h13,
        e r2 h21 h22 h23, e r3 h31 h32 h33]
      rw [ih j i]
      push_cast
      by_cases hj : j = jbeg + k
      · subst hj
        simp only [true_and, lt_self_iff_false, and_false, if_false]
        have : jbeg ≤ jbeg + (k : Int) ∧ jbeg + (k : Int) < jbeg + (k + 1) := by omega
        rw [if_pos this]
        split_ifs <;> first | rfl | (exfalso; omega)
      · have hc : (jbeg ≤ j ∧ j < jbeg + (k + 1)) ↔ (jbeg ≤ j ∧ j < jbeg + k) := by omega
        simp only [hj, false_and, if_false, hc])
  exact key j i

/-- Closed form of a loop over columns that writes three cells of the column
from three other cells of the same column. -/
theorem colFill_apply (ibeg : Int) (n : Nat) (w1 w2 w3 r1 r2 r3 : Int)
    (M : (Fin 4 → K) → Fin 4 → K) (u : Grid K)
    (h11 : r1 ≠ w1) (h21 : r2 ≠ w1) (h22 : r2 ≠ w2) (h31 : r3 ≠ w1) (h32 : r3 ≠ w2)
    (h33 : r3 ≠ w3) (h12 : r1 ≠ w2) (h13 : r1 ≠ w3) (h23 : r2 ≠ w3)
    (d12 : w1 ≠ w2) (d13 : w1 ≠ w3) (d23 : w2 ≠ w3) (j i : Int) :
    forRange ibeg n (fun i u =>
      let u := setCell u w1 i (M (u r1 i))
      let u := setCell u w2 i (M (u r2 i))
      setCell u w3 i (M (u r3 i))) u j i =
      if ibeg ≤ i ∧ i < ibeg + n then
        (if j = w1 then M (u r1 i) else if j = w2 then M (u r2 i)
         else if j = w3 then M (u r3 i) else u j i)
      else u j i := by
  have key := forRange_invariant
    (fun (k : Nat) (s : Grid K) => ∀ j i : Int, s j i =
      if ibeg ≤ i ∧ i < ibeg + k then
        (if j = w1 then M (u r1 i) else if j = w2 then M (u r2 i)
         else if j = w3 then M (u r3 i) else u j i)
      else u j i)
    ibeg n
    (fun i u =>
      let u := setCell u w1 i (M (u r1 i))
      let u := setCell u w2 i (M (u r2 i))
      setCell u w3 i (M (u r3 i))) u
    (by intro j i; rw [if_neg]; push_cast; omega)
    (by
      intro k s' _ ih j i
      have e : ∀ r, r ≠ w1 → r ≠ w2 → r ≠ w3 → s' r (ibeg + k) = u r (ibeg + k) := by
        intro r a b c
        rw [ih]; simp [a, b, c]
      simp only [setCell, and_true, h21, h31, h32, if_false, e r1 h11 h12 h13,
        e r2 h21 h22 h23, e r3 h31 h32 h33]
      rw [ih j i]
      push_cast
      by_cases hi : i = ibeg + k
      · subst hi
        simp only [and_true, lt_self_iff_false, and_false, if_false]
        have : ibeg ≤ ibeg + (k : Int) ∧ ibeg + (k : Int) < ibeg + (k + 1) := by omega
        rw [if_pos this]
        split_ifs <;> first | rfl | (exfalso; omega)
      · have hc : (ibeg ≤ i ∧ i < ibeg + (k + 1)) ↔ (ibeg ≤ i ∧ i < ibeg + k) := by omega
        simp only [hi, and_false, if_false, hc])
  exact key j i

/-- Closed form of the left wall ghost fill. -/
theorem fillLeft_apply (t : Tile) (u : Grid K) (j i : Int) :
    fillLeft t u j i =
      if t.jbeg ≤ j ∧ j < t.jbeg + t.nlocy then
        (if i = t.ibeg - 1 then wallMirrorX (u j (t.ibeg - 1 + 1))
         else if i = t.ibeg - 1 - 1 then wallMirrorX (u j (t.ibeg - 1 + 2))
         else if i = t.ibeg - 1 - 2 then wallMirrorX (u j (t.ibeg - 1 + 3))
         else u j i)
      else u j i := by
  unfold fillLeft
  exact rowFill_apply t.jbeg t.nlocy _ _ _ _ _ _ wallMirrorX u
    (by omega) (by omega) (by omega) (by omega) (by omega) (by omega) (by omega) (by omega)
    (by omega) (by omega) (by omega) (by omega) j i

/-- Closed form of the right wall ghost fill. -/
theorem fillRight_apply (t : Tile) (u : Grid K) (j i : Int) :
    fillRight t u j i =
      if t.jbeg ≤ j ∧ j < t.jbeg + t.nlocy then
        (if i = t.ibeg + t.nlocx then wallMirrorX (u j (t.ibeg + t.nlocx - 1))
         else if i = t.ibeg + t.nlocx + 1 then wallMirrorX (u j (t.ibeg + t.nlocx - 2))
         else if i = t.ibeg + t.nlocx + 2 then wallMirrorX (u j (t.ibeg + t.nlocx - 3))
         else u j i)
      else u j i := by
  unfold fillRight
  exact rowFill_apply t.jbeg t.nlocy _ _ _ _ _ _ wallMirrorX u
    (by omega) (by omega) (by omega) (by omega) (by omega) (by omega) (by omega) (by omega)
    (by omega) (by omega) (by omega) (by omega) j i

/-- Closed form of the bottom wall ghost fill. -/
theorem fillBottom_apply (t : Tile) (u : Grid K) (j i : Int) :
    fillBottom t u j i =
      if t.ibeg ≤ i ∧ i < t.ibeg + t.nlocx then
        (if j = t.jbeg - 1 then wallMirrorY (u (t.jbeg - 1 + 1) i)
         else if j = t.jbeg - 1 - 1 then wallMirrorY (u (t.jbeg - 1 + 2) i)
         else if j = t.jbeg - 1 - 2 then wallMirrorY (u (t.jbeg - 1 + 3) i)
         else u j i)
      else u j i := by
  unfold fillBottom
  exact colFill_apply t.ibeg t.nlocx _ _ _ _ _ _ wallMirrorY u
    (by omega) (by omega) (by omega) (by omega) (by omega) (by omega) (by omega) (by omega)
    (by omega) (by omega) (by omega) (by omega) j i

/-- Closed form of the top wall ghost fill. -/
theorem fillTop_apply (t : Tile) (u : Grid K) (j i : Int) :
    fillTop t u j i =
      if t.ibeg ≤ i ∧ i < t.ibeg + t.nlocx then
        (if j = t.jbeg + t.nlocy then wallMirrorY (u (t.jbeg + t.nlocy - 1) i)
         else if j = t.jbeg + t.nlocy + 1 then wallMirrorY (u (t.jbeg + t.nlocy - 2) i)
         else if j = t.jbeg + t.nlocy + 2 then wallMirrorY (u (t.jbeg + t.nlocy - 3) i)
         else u j i)
      else u j i := by
  unfold fillTop
  exact colFill_apply t.ibeg t.nlocx _ _ _ _ _ _ wallMirrorY u
    (by omega) (by omega) (by omega) (by omega) (by omega) (by omega) (by omega) (by omega)
    (by omega) (by omega) (by omega) (by omega) j i

/-! ### Boundary step -/

theorem bcLeft_eq (bc : BoundaryConfig) (t : Tile) (u : Grid K) :
    bcLeft bc t u =
      if t.ibeg = 0 ∧ bc.BC_LEFT = bctype.farfield then .error "Not implemented"
      else .ok (if t.ibeg = 0 ∧ bc.BC_LEFT = bctype.wall then fillLeft t u else u) := by
  unfold bcLeft
  by_cases h : t.ibeg = 0 ∧ bc.BC_LEFT = bctype.wall
  · have n : ¬ (t.ibeg = 0 ∧ bc.BC_LEFT = bctype.farfield) := by
      rintro ⟨_, e⟩; rw [h.2] at e; cases e
    rw [if_pos h, if_neg n, if_pos h]
  · rw [if_neg h, if_neg h]

theorem bcRight_eq (bc : BoundaryConfig) (t : Tile) (u : Grid K) :
    bcRight bc t u =
      if bc.BC_RIGHT = bctype.farfield then .error "Not implemented"
      else .ok (if t.ibeg + t.nlocx = t.nx ∧ bc.BC_RIGHT = bctype.wall
        then fillRight t u else u) := by
  unfold bcRight
  by_cases h : t.ibeg + t.nlocx = t.nx ∧ bc.BC_RIGHT = bctype.wall
  · have n : ¬ (bc.BC_RIGHT = bctype.farfield) := by
      intro e; rw [h.2] at e; cases e
    rw [if_pos h, if_neg n, if_pos h]
  · rw [if_neg h, if_neg h]

theorem bcBottom_eq (bc : BoundaryConfig) (t : Tile) (u : Grid K) :
    bcBottom bc t u =
      if bc.BC_BOTTOM = bctype.farfield then .error "Not implemented"
      else .ok (if t.jbeg = 0 ∧ bc.BC_BOTTOM = bctype.wall then fillBottom t u else u) := by
  unfold bcBottom
  by_cases h : t.jbeg = 0 ∧ bc.BC_BOTTOM = bctype.wall
  · have n : ¬ (bc.BC_BOTTOM = bctype.farfield) := by
      intro e; rw [h.2] at e; cases e
    rw [if_pos h, if_neg n, if_pos h]
  · rw [if_neg h, if_neg h]

theorem bcTop_eq (bc : BoundaryConfig) (t : Tile) (u : Grid K) :
    bcTop bc t u =
      if bc.BC_TOP = bctype.farfield then .error "Not implemented"
      else .ok (if t.jbeg + t.nlocy = t.ny ∧ bc.BC_TOP = bctype.wall
        then fillTop t u else u) := by
  unfold bcTop
  by_cases h : t.jbeg + t.nlocy = t.ny ∧ bc.BC_TOP = bctype.wall
  · have n : ¬ (bc.BC_TOP = bctype.farfield) := by
      intro e; rw [h.2] at e; cases e
    rw [if_pos h, if_neg n, if_pos h]
  · rw [if_neg h, if_neg h]

/-- The boundary step raises exactly under `farfieldRaised`, and otherwise
returns the ghost-filled array. -/
theorem boundaryStep_eq (bc : BoundaryConfig) (t : Tile) (u : Grid K) :
    boundaryStep bc t u =
      if farfieldRaised bc t then .error "Not implemented" else .ok (ghostFill bc t u) := by
  unfold boundaryStep
  rw [bcLeft_eq]
  by_cases hL : t.ibeg = 0 ∧ bc.BC_LEFT = bctype.farfield
  · have y : farfieldRaised bc t := Or.inl hL
    rw [if_pos hL, if_pos y]
  · rw [if_neg hL]
    simp only []
    rw [bcRight_eq]
    by_cases hR : bc.BC_RIGHT = bctype.farfield
    · have y : farfieldRaised bc t := Or.inr (Or.inl hR)
      rw [if_pos hR, if_pos y]
    · rw [if_neg hR]
      simp only []
      rw [bcBottom_eq]
      by_cases hB : bc.BC_BOTTOM = bctype.farfield
      · have y : farfieldRaised bc t := Or.inr (Or.inr (Or.inl hB))
        rw [if_pos hB, if_pos y]
      · rw [if_neg hB]
        simp only []
        rw [bcTop_eq]
        by_cases hT : bc.BC_TOP = bctype.farfield
        · have y : farfieldRaised bc t := Or.inr (Or.inr (Or.inr hT))
          rw [if_pos hT, if_pos y]
        · have n : ¬ farfieldRaised bc t := by
            rintro (h | h | h | h)
            exacts [hL h, hR h, hB h, hT h]
          rw [if_neg hT, if_neg n]
          rfl

theorem wallMirrorX_spec (c : Fin 4 → K) : wallGhostX_spec (wallMirrorX c) c := by
  simp [wallGhostX_spec, wallMirrorX, neg_div]

theorem wallMirrorY_spec (c : Fin 4 → K) : wallGhostY_spec (wallMirrorY c) c := by
  simp [wallGhostY_spec, wallMirrorY, neg_div]

theorem fillLeft_frame (t : Tile) (u : Grid K) (j i : Int) (h : t.ibeg ≤ i) :
    fillLeft t u j i = u j i := by
  rw [fillLeft_apply]; split_ifs <;> first | rfl | (exfalso; omega)

theorem fillRight_frame (t : Tile) (u : Grid K) (j i : Int) (h : i < t.ibeg + t.nlocx) :
    fillRight t u j i = u j i := by
  rw [fillRight_apply]; split_ifs <;> first | rfl | (exfalso; omega)

theorem fillBottom_frame (t : Tile) (u : Grid K) (j i : Int) (h : t.jbeg ≤ j) :
    fillBottom t u j i = u j i := by
  rw [fillBottom_apply]; split_ifs <;> first | rfl | (exfalso; omega)

theorem fillTop_frame (t : Tile) (u : Grid K) (j i : Int) (h : j < t.jbeg + t.nlocy) :
    fillTop t u j i = u j i := by
  rw [fillTop_apply]; split_ifs <;> first | rfl | (exfalso; omega)

theorem fillLeft_frame_row (t : Tile) (u : Grid K) (j i : Int)
    (h : ¬ (t.jbeg ≤ j ∧ j < t.jbeg + t.nlocy)) : fillLeft t u j i = u j i := by
  rw [fillLeft_apply, if_neg h]

theorem fillRight_frame_row (t : Tile) (u : Grid K) (j i : Int)
    (h : ¬ (t.jbeg ≤ j ∧ j < t.jbeg + t.nlocy)) : fillRight t u j i = u j i := by
  rw [fillRight_apply, if_neg h]

theorem fillBottom_frame_col (t : Tile) (u : Grid K) (j i : Int)
    (h : ¬ (t.ibeg ≤ i ∧ i < t.ibeg + t.nlocx)) : fillBottom t u j i = u j i := by
  rw [fillBottom_apply, if_neg h]

theorem fillTop_frame_col (t : Tile) (u : Grid K) (j i : Int)
    (h : ¬ (t.ibeg ≤ i ∧ i < t.ibeg + t.nlocx)) : fillTop t u j i = u j i := by
  rw [fillTop_apply, if_neg h]

/-- No ghost fill writes an owned cell. -/
theorem ghostFill_owned (bc : BoundaryConfig) (t : Tile) (u : Grid K) (j i : Int)
    (h : t.owned j i) : ghostFill bc t u j i = u j i := by
  obtain ⟨h1, h2, h3, h4⟩ := h
  unfold ghostFill
  split_ifs <;>
    simp only [fillTop_frame t _ j i h2, fillBottom_frame t _ j i h1,
      fillRight_frame t _ j i h4, fillLeft_frame t _ j i h3]

/-- Left ghost cells after the ghost fills, when the left wall branch is taken. -/
theorem ghostFill_left (bc : BoundaryConfig) (t : Tile) (u : Grid K)
    (hc : t.ibeg = 0 ∧ bc.BC_LEFT = bctype.wall) (j i : Int)
    (h1 : t.jbeg ≤ j) (h2 : j < t.jbeg + t.nlocy) (h3 : t.ibeg - 3 ≤ i) (h4 : i < t.ibeg) :
    ghostFill bc t u j i = wallMirrorX (u j (2 * t.ibeg - 1 - i)) := by
  have hcol : ¬ (t.ibeg ≤ i ∧ i < t.ibeg + t.nlocx) := by omega
  have hlt : i < t.ibeg + t.nlocx := by omega
  have e : fillLeft t u j i = wallMirrorX (u j (2 * t.ibeg - 1 - i)) := by
    rw [fillLeft_apply, if_pos ⟨h1, h2⟩]
    split_ifs <;> first
      | (exfalso; omega)
      | (refine congrArg wallMirrorX (congrArg (u j) ?_); omega)
  unfold ghostFill
  simp only [if_pos hc]
  split_ifs <;>
    simp only [fillTop_frame_col t _ j _ hcol, fillBottom_frame_col t _ j _ hcol,
      fillRight_frame t _ j _ hlt, e]

/-- Right ghost cells after the ghost fills, when the right wall branch is taken. -/
theorem ghostFill_right (bc : BoundaryConfig) (t : Tile) (u : Grid K) (hx : 3 ≤ t.nlocx)
    (hc : t.ibeg + t.nlocx = t.nx ∧ bc.BC_RIGHT = bctype.wall) (j i : Int)
    (h1 : t.jbeg ≤ j) (h2 : j < t.jbeg + t.nlocy)
    (h3 : t.ibeg + t.nlocx ≤ i) (h4 : i < t.ibeg + t.nlocx + 3) :
    ghostFill bc t u j i = wallMirrorX (u j (2 * (t.ibeg + t.nlocx) - 1 - i)) := by
  have hcol : ¬ (t.ibeg ≤ i ∧ i < t.ibeg + t.nlocx) := by omega
  have hge : t.ibeg ≤ 2 * (t.ibeg + (t.nlocx : Int)) - 1 - i := by omega
  have e : ∀ v : Grid K, fillRight t v j i
      = wallMirrorX (v j (2 * (t.ibeg + t.nlocx) - 1 - i)) := by
    intro v
    rw [fillRight_apply, if_pos ⟨h1, h2⟩]
    split_ifs <;> first
      | (exfalso; omega)
      | (refine congrArg wallMirrorX (congrArg (v j) ?_); omega)
  unfold ghostFill
  simp only [if_pos hc]
  split_ifs <;>
    simp only [fillTop_frame_col t _ j _ hcol, fillBottom_frame_col t _ j _ hcol, e,
      fillLeft_frame t _ j _ hge]

/-- Bottom ghost cells after the ghost fills, when the bottom wall branch is taken. -/
theorem ghostFill_bottom (bc : BoundaryConfig) (t : Tile) (u : Grid K) (hy : 3 ≤ t.nlocy)
    (hc : t.jbeg = 0 ∧ bc.BC_BOTTOM = bctype.wall) (j i : Int)
    (h1 : t.ibeg ≤ i) (h2 : i < t.ibeg + t.nlocx) (h3 : t.jbeg - 3 ≤ j) (h4 : j < t.jbeg) :
    ghostFill bc t u j i = wallMirrorY (u (2 * t.jbeg - 1 - j) i) := by
  have hlt : j < t.jbeg + t.nlocy := by omega
  have e : ∀ v : Grid K, fillBottom t v j i = wallMirrorY (v (2 * t.jbeg - 1 - j) i) := by
    intro v
    rw [fillBottom_apply, if_pos ⟨h1, h2⟩]
    split_ifs <;> first
      | (exfalso; omega)
      | (refine congrArg wallMirrorY (congrFun (congrArg v ?_) i); omega)
  unfold ghostFill
  simp only [if_pos hc]
  split_ifs <;>
    simp only [fillTop_frame t _ j _ hlt, e, fillRight_frame t _ _ i h2,
      fillLeft_frame t _ _ i h1]

/-- Top ghost cells after the ghost fills, when the top wall branch is taken. -/
theorem ghostFill_top (bc : BoundaryConfig) (t : Tile) (u : Grid K) (hy : 3 ≤ t.nlocy)
    (hc : t.jbeg + t.nlocy = t.ny ∧ bc.BC_TOP = bctype.wall) (j i : Int)
    (h1 : t.ibeg ≤ i) (h2 : i < t.ibeg + t.nlocx)
    (h3 : t.jbeg + t.nlocy ≤ j) (h4 : j < t.jbeg + t.nlocy + 3) :
    ghostFill bc t u j i = wallMirrorY (u (2 * (t.jbeg + t.nlocy) - 1 - j) i) := by
  have hge : t.jbeg ≤ 2 * (t.jbeg + (t.nlocy : Int)) - 1 - j := by omega
  have e : ∀ v : Grid K, fillTop t v j i
      = wallMirrorY (v (2 * (t.jbeg + t.nlocy) - 1 - j) i) := by
    intro v
    rw [fillTop_apply, if_pos ⟨h1, h2⟩]
    split_ifs <;> first
      | (exfalso; omega)
      | (refine congrArg wallMirrorY (congrFun (congrArg v ?_) i); omega)
  unfold ghostFill
  simp only [if_pos hc]
  split_ifs <;>
    simp only [e, fillBottom_frame t _ _ i hge, fillRight_frame t _ _ i h2,
      fillLeft_frame t _ _ i h1]

/-- C8: for a tile with at least 3 owned cells in each direction, the boundary
step either raises "Not implemented" (exactly when a farfield test fires) or
returns an array in which no owned cell is modified and, for every side that
touches the global boundary and is a wall, the `k`-th ghost cell outside that
side (`k = 0, 1, 2`, every owned row resp. column) has the density, total
energy and tangential velocity of the `k`-th owned cell inside it and the
negated normal velocity. -/
theorem boundaryStep_wall_ghost_fill (bc : BoundaryConfig) (t : Tile) (u : Grid K)
    (hx : 3 ≤ t.nlocx) (hy : 3 ≤ t.nlocy) :
    (farfieldRaised bc t ∧ boundaryStep bc t u = .error "Not implemented")
    ∨ (¬ farfieldRaised bc t ∧ ∃ u', boundaryStep bc t u = .ok u'
        ∧ (∀ j i, t.owned j i → u' j i = u j i)
        ∧ (t.ibeg = 0 ∧ bc.BC_LEFT = bctype.wall →
            ∀ k : Nat, k < 3 → ∀ j : Int, t.jbeg ≤ j → j < t.jbeg + t.nlocy →
              wallGhostX_spec (u' j (t.ibeg - 1 - k)) (u' j (t.ibeg + k)))
        ∧ (t.ibeg + t.nlocx = t.nx ∧ bc.BC_RIGHT = bctype.wall →
            ∀ k : Nat, k < 3 → ∀ j : Int, t.jbeg ≤ j → j < t.jbeg + t.nlocy →
              wallGhostX_spec (u' j (t.ibeg + t.nlocx + k)) (u' j (t.ibeg + t.nlocx - 1 - k)))
        ∧ (t.jbeg = 0 ∧ bc.BC_BOTTOM = bctype.wall →
            ∀ k : Nat, k < 3 → ∀ i : Int, t.ibeg ≤ i → i < t.ibeg + t.nlocx →
              wallGhostY_spec (u' (t.jbeg - 1 - k) i) (u' (t.jbeg + k) i))
        ∧ (t.jbeg + t.nlocy = t.ny ∧ bc.BC_TOP = bctype.wall →
            ∀ k : Nat, k < 3 → ∀ i : Int, t.ibeg ≤ i → i < t.ibeg + t.nlocx →
              wallGhostY_spec (u' (t.jbeg + t.nlocy + k) i) (u' (t.jbeg + t.nlocy - 1 - k) i))) := by
  by_cases hf : farfieldRaised bc t
  · left
    exact ⟨hf, by rw [boundaryStep_eq, if_pos hf]⟩
  · right
    refine ⟨hf, ghostFill bc t u, by rw [boundaryStep_eq, if_neg hf], ?_, ?_, ?_, ?_, ?_⟩
    · intro j i h
      exact ghostFill_owned bc t u j i h
    · intro hc k hk j h1 h2
      rw [ghostFill_left bc t u hc j _ h1 h2 (by omega) (by omega),
        ghostFill_owned bc t u j _ ⟨h1, h2, by omega, by omega⟩]
      have e : 2 * t.ibeg - 1 - (t.ibeg - 1 - (k : Int)) = t.ibeg + k := by ring
      rw [e]
      exact wallMirrorX_spec _
    · intro hc k hk j h1 h2
      rw [ghostFill_right bc t u hx hc j _ h1 h2 (by omega) (by omega),
        ghostFill_owned bc t u j _ ⟨h1, h2, by omega, by omega⟩]
      have e : 2 * (t.ibeg + (t.nlocx : Int)) - 1 - (t.ibeg + t.nlocx + (k : Int))
          = t.ibeg + t.nlocx - 1 - k := by ring
      rw [e]
      exact wallMirrorX_spec _
    · intro hc k hk i h1 h2
      rw [ghostFill_bottom bc t u hy hc _ i h1 h2 (by omega) (by omega),
        ghostFill_owned bc t u _ i ⟨by omega, by omega, h1, h2⟩]
      have e : 2 * t.jbeg - 1 - (t.jbeg - 1 - (k : Int)) = t.jbeg + k := by ring
      rw [e]
      exact wallMirrorY_spec _
    · intro hc k hk i h1 h2
      rw [ghostFill_top bc t u hy hc _ i h1 h2 (by omega) (by omega),
        ghostFill_owned bc t u _ i ⟨by omega, by omega, h1, h2⟩]
      have e : 2 * (t.jbeg + (t.nlocy : Int)) - 1 - (t.jbeg + t.nlocy + (k : Int))
          = t.jbeg + t.nlocy - 1 - k := by ring
      rw [e]
      exact wallMirrorY_spec _

/-- A concrete instance: a 3 x 3 tile covering the grid, walls on the four sides. -/
theorem boundaryStep_wall_ghost_fill_witness :
    3 ≤ tile3x3.nlocx ∧ 3 ≤ tile3x3.nlocy ∧ ¬ farfieldRaised allWalls tile3x3
    ∧ ∃ u', boundaryStep allWalls tile3x3 sampleState = .ok u'
        ∧ (∀ j i, tile3x3.owned j i → u' j i = sampleState j i)
        ∧ wallGhostX_spec (u' 1 (-1)) (u' 1 0) ∧ wallGhostX_spec (u' 1 5) (u' 1 0)
        ∧ wallGhostY_spec (u' (-2) 2) (u' 1 2) ∧ wallGhostY_spec (u' 3 2) (u' 2 2) := by
  have nf : ¬ farfieldRaised allWalls tile3x3 := by
    simp [farfieldRaised, allWalls]
  refine ⟨by decide, by decide, nf, ?_⟩
  rcases boundaryStep_wall_ghost_fill allWalls tile3x3 sampleState (by decide) (by decide) with
    h | ⟨_, u', hu, ho, hl, hr, hb, ht⟩
  · exact absurd h.1 nf
  · refine ⟨u', hu, ho, ?_, ?_, ?_, ?_⟩
    · exact hl ⟨rfl, rfl⟩ 0 (by decide) 1 (by decide) (by decide)
    · exact hr ⟨rfl, rfl⟩ 2 (by decide) 1 (by decide) (by decide)
    · exact hb ⟨rfl, rfl⟩ 1 (by decide) 2 (by decide) (by decide)
    · exact ht ⟨rfl, rfl⟩ 0 (by decide) 2 (by decide) (by decide)

/-- C9 (failing input): the tile `[0,3) x [0,3)` of a 6 x 3 grid does not touch
the right boundary, yet with `BC_RIGHT = farfield` (all other sides periodic) the
boundary step raises "Not implemented": the right, bottom and top tests of
lines 392, 420, 448 do not check that the tile touches the side. -/
theorem boundaryStep_farfield_raised_off_boundary :
    (Tile.mk 6 3 0 0 3 3).ibeg + (Tile.mk 6 3 0 0 3 3).nlocx ≠ (Tile.mk 6 3 0 0 3 3).nx
    ∧ boundaryStep ⟨bctype.periodic, bctype.farfield, bctype.periodic, bctype.periodic⟩
        (Tile.mk 6 3 0 0 3 3) (fun _ _ _ => (0 : ℚ)) = .error "Not implemented" := by
  refine ⟨by decide, ?_⟩
  have y : farfieldRaised
      ⟨bctype.periodic, bctype.farfield, bctype.periodic, bctype.periodic⟩
      (Tile.mk 6 3 0 0 3 3) := Or.inr (Or.inl rfl)
  rw [boundaryStep_eq, if_pos y]

/-- C10 (failing input): on a 1 x 1 tile whose only cell has speeds `(1, 1)`, when
the uninitialised locals `lambdax`, `lambday` hold `5` the value handed to the
reduction is `5`, not the maximum `1` over the owned cells. -/
theorem localLambda_keeps_uninitialised_value :
    compute_lambda Real.sqrt (2 : ℝ) ![2, 0, 0, 1] = (1, 1)
    ∧ localLambda Real.sqrt (2 : ℝ) (Tile.mk 1 1 0 0 1 1) (fun _ _ => ![2, 0, 0, 1]) 5 5
        = (5, 5) := by
  have h : compute_lambda Real.sqrt (2 : ℝ) ![2, 0, 0, 1] = (1, 1) := by
    simp [compute_lambda]
    norm_num
  refine ⟨h, ?_⟩
  have e : localLambda Real.sqrt (2 : ℝ) (Tile.mk 1 1 0 0 1 1) (fun _ _ => ![2, 0, 0, 1]) 5 5
      = (PetscMax 5 (compute_lambda Real.sqrt (2 : ℝ) ![2, 0, 0, 1]).1,
         PetscMax 5 (compute_lambda Real.sqrt (2 : ℝ) ![2, 0, 0, 1]).2) := rfl
  rw [e, h]
  simp [PetscMax]


/-! ### Residual assembly -/

/-- Closed form of a loop nest that rewrites every cell of a box from its own
previous value. -/
theorem boxMap_apply (jb ib : Int) (n m : Nat) (g : Int → Int → (Fin 4 → K) → Fin 4 → K)
    (s0 : Grid K) (j i : Int) :
    forRange jb n (fun j s => forRange ib m (fun i s => setCell s j i (g j i (s j i))) s) s0 j i
      = if (jb ≤ j ∧ j < jb + n) ∧ (ib ≤ i ∧ i < ib + m) then g j i (s0 j i) else s0 j i := by
  have inner : ∀ (j0 : Int) (s1 : Grid K) (j i : Int),
      forRange ib m (fun i s => setCell s j0 i (g j0 i (s j0 i))) s1 j i
        = if j = j0 ∧ (ib ≤ i ∧ i < ib + m) then g j i (s1 j i) else s1 j i := by
    intro j0 s1
    refine forRange_invariant
      (fun (k : Nat) (s : Grid K) => ∀ j i : Int, s j i =
        if j = j0 ∧ (ib ≤ i ∧ i < ib + k) then g j i (s1 j i) else s1 j i)
      ib m _ s1 ?_ ?_
    · intro j i; rw [if_neg]; push_cast; omega
    · intro k s' _ ih j i
      simp only [setCell]
      rw [ih j i, ih j0 (ib + k)]
      push_cast
      by_cases h : j = j0 ∧ i = ib + k
      · obtain ⟨rfl, rfl⟩ := h
        rw [if_pos ⟨rfl, rfl⟩, if_neg (by omega), if_pos (by omega)]
      · rw [if_neg h]
        by_cases hj : j = j0
        · have hi : i ≠ ib + k := fun e => h ⟨hj, e⟩
          have hc : (j = j0 ∧ (ib ≤ i ∧ i < ib + (k + 1))) ↔ (j = j0 ∧ (ib ≤ i ∧ i < ib + k)) := by
            omega
          simp only [hc]
        · simp only [hj, false_and, if_false]
  refine forRange_invariant
    (fun (k : Nat) (s : Grid K) => ∀ j i : Int, s j i =
      if (jb ≤ j ∧ j < jb + k) ∧ (ib ≤ i ∧ i < ib + m) then g j i (s0 j i) else s0 j i)
    jb n _ s0 ?_ ?_ j i
  · intro j i; rw [if_neg]; push_cast; omega
  · intro k s' _ ih j i
    rw [inner (jb + k) s' j i, ih j i]
    push_cast
    by_cases hj : j = jb + k
    · subst hj
      by_cases hi : ib ≤ i ∧ i < ib + m
      · rw [if_pos ⟨rfl, hi⟩, if_neg (by omega), if_pos ⟨by omega, hi⟩]
      · rw [if_neg (fun h => hi h.2), if_neg (by omega), if_neg (fun h => hi h.2)]
    · rw [if_neg (fun h => hj h.1)]
      have hc : ((jb ≤ j ∧ j < jb + (k + 1)) ∧ (ib ≤ i ∧ i < ib + m))
          ↔ ((jb ≤ j ∧ j < jb + k) ∧ (ib ≤ i ∧ i < ib + m)) := by omega
      simp only [hc]

theorem zeroResidual_apply (t : Tile) (R : Grid K) (j i : Int) :
    zeroResidual t R j i = if t.owned j i then (fun _ => 0) else R j i := by
  unfold zeroResidual forCells
  rw [boxMap_apply t.jbeg t.ibeg t.nlocy t.nlocx (fun _ _ _ => fun _ => (0 : K)) R j i]
  simp only [Tile.owned, and_assoc]

theorem scaleResidual_apply (dx dy : K) (t : Tile) (res : Grid K) (j i : Int) :
    scaleResidual dx dy t res j i
      = if t.owned j i then (fun d => res j i d * -(1 / (dx * dy))) else res j i := by
  unfold scaleResidual forCells
  rw [boxMap_apply t.jbeg t.ibeg t.nlocy t.nlocx
    (fun _ _ v => fun d => v d * -(1 / (dx * dy))) res j i]
  simp only [Tile.owned, and_assoc]


theorem setCell_add_apply (a : Grid K) (j i : Int) (v : Fin 4 → K) (j' i' : Int) (d : Fin 4) :
    setCell a j i (fun d => a j i d + v d) j' i' d
      = a j' i' d + (if j' = j ∧ i' = i then v d else 0) := by
  unfold setCell
  by_cases h : j' = j ∧ i' = i
  · rw [if_pos h, if_pos h]; obtain ⟨rfl, rfl⟩ := h; rfl
  · rw [if_neg h, if_neg h, add_zero]

theorem setCell_sub_apply (a : Grid K) (j i : Int) (v : Fin 4 → K) (j' i' : Int) (d : Fin 4) :
    setCell a j i (fun d => a j i d - v d) j' i' d
      = a j' i' d + (if j' = j ∧ i' = i then -(v d) else 0) := by
  unfold setCell
  by_cases h : j' = j ∧ i' = i
  · rw [if_pos h, if_pos h]; obtain ⟨rfl, rfl⟩ := h; exact sub_eq_add_neg _ _
  · rw [if_neg h, if_neg h, add_zero]

/-- Pointwise effect of one x-face. -/
theorem xFaceStep_apply (dy : K) (t : Tile) (fxp fxm : Grid K) (f : Int → Int → Fin 4 → K)
    (j i : Int) (res : Grid K) (j' i' : Int) (d : Fin 4) :
    xFaceStep dy t fxp fxm f j i res j' i' d
      = res j' i' d
        + (if j' = j ∧ i' = i ∧ (i = t.ibeg ∨ i ≠ t.ibeg + t.nlocx) then -(dy * f j i d) else 0)
        + (if j' = j ∧ i' = i - 1 ∧ i ≠ t.ibeg then dy * f j i d else 0) := by
  by_cases h1 : i = t.ibeg
  · have e : xFaceStep dy t fxp fxm f j i res
        = setCell res j i (fun d => res j i d - dy * f j i d) := by
      unfold xFaceStep; exact if_pos h1
    have cA : (j' = j ∧ i' = i ∧ (i = t.ibeg ∨ i ≠ t.ibeg + t.nlocx)) ↔ (j' = j ∧ i' = i) := by
      constructor
      · rintro ⟨a, b, _⟩; exact ⟨a, b⟩
      · rintro ⟨a, b⟩; exact ⟨a, b, Or.inl h1⟩
    have cB : ¬ (j' = j ∧ i' = i - 1 ∧ i ≠ t.ibeg) := fun h => h.2.2 h1
    rw [e, setCell_sub_apply, if_neg cB, add_zero]
    simp only [cA]
  · by_cases h2 : i = t.ibeg + t.nlocx
    · have e : xFaceStep dy t fxp fxm f j i res
          = setCell res j (i - 1) (fun d => res j (i - 1) d + dy * f j i d) := by
        unfold xFaceStep; rw [if_neg h1]; exact if_pos h2
      have cA : ¬ (j' = j ∧ i' = i ∧ (i = t.ibeg ∨ i ≠ t.ibeg + t.nlocx)) := by
        rintro ⟨_, _, h | h⟩
        · exact h1 h
        · exact h h2
      have cB : (j' = j ∧ i' = i - 1 ∧ i ≠ t.ibeg) ↔ (j' = j ∧ i' = i - 1) := by
        constructor
        · rintro ⟨a, b, _⟩; exact ⟨a, b⟩
        · rintro ⟨a, b⟩; exact ⟨a, b, h1⟩
      rw [e, setCell_add_apply, if_neg cA, add_zero]
      simp only [cB]
    · have e : xFaceStep dy t fxp fxm f j i res
          = setCell (setCell res j i (fun d => res j i d - dy * f j i d)) j (i - 1)
              (fun d => setCell res j i (fun d => res j i d - dy * f j i d) j (i - 1) d
                + dy * f j i d) := by
        unfold xFaceStep; rw [if_neg h1, if_neg h2]
      have cA : (j' = j ∧ i' = i ∧ (i = t.ibeg ∨ i ≠ t.ibeg + t.nlocx)) ↔ (j' = j ∧ i' = i) := by
        constructor
        · rintro ⟨a, b, _⟩; exact ⟨a, b⟩
        · rintro ⟨a, b⟩; exact ⟨a, b, Or.inr h2⟩
      have cB : (j' = j ∧ i' = i - 1 ∧ i ≠ t.ibeg) ↔ (j' = j ∧ i' = i - 1) := by
        constructor
        · rintro ⟨a, b, _⟩; exact ⟨a, b⟩
        · rintro ⟨a, b⟩; exact ⟨a, b, h1⟩
      rw [e, setCell_add_apply, setCell_sub_apply]
      simp only [cA, cB]

/-- Pointwise effect of one y-face. -/
theorem yFaceStep_apply (dx : K) (t : Tile) (fyp fym : Grid K) (f : Int → Int → Fin 4 → K)
    (j i : Int) (res : Grid K) (j' i' : Int) (d : Fin 4) :
    yFaceStep dx t fyp fym f j i res j' i' d
      = res j' i' d
        + (if j' = j ∧ i' = i ∧ (j = t.jbeg ∨ j ≠ t.jbeg + t.nlocy) then -(dx * f j i d) else 0)
        + (if j' = j - 1 ∧ i' = i ∧ j ≠ t.jbeg then dx * f j i d else 0) := by
  by_cases h1 : j = t.jbeg
  · have e : yFaceStep dx t fyp fym f j i res
        = setCell res j i (fun d => res j i d - dx * f j i d) := by
      unfold yFaceStep; exact if_pos h1
    have cA : (j' = j ∧ i' = i ∧ (j = t.jbeg ∨ j ≠ t.jbeg + t.nlocy)) ↔ (j' = j ∧ i' = i) := by
      constructor
      · rintro ⟨a, b, _⟩; exact ⟨a, b⟩
      · rintro ⟨a, b⟩; exact ⟨a, b, Or.inl h1⟩
    have cB : ¬ (j' = j - 1 ∧ i' = i ∧ j ≠ t.jbeg) := fun h => h.2.2 h1
    rw [e, setCell_sub_apply, if_neg cB, add_zero]
    simp only [cA]
  · by_cases h2 : j = t.jbeg + t.nlocy
    · have e : yFaceStep dx t fyp fym f j i res
          = setCell res (j - 1) i (fun d => res (j - 1) i d + dx * f j i d) := by
        unfold yFaceStep; rw [if_neg h1]; exact if_pos h2
      have cA : ¬ (j' = j ∧ i' = i ∧ (j = t.jbeg ∨ j ≠ t.jbeg + t.nlocy)) := by
        rintro ⟨_, _, h | h⟩
        · exact h1 h
        · exact h h2
      have cB : (j' = j - 1 ∧ i' = i ∧ j ≠ t.jbeg) ↔ (j' = j - 1 ∧ i' = i) := by
        constructor
        · rintro ⟨a, b, _⟩; exact ⟨a, b⟩
        · rintro ⟨a, b⟩; exact ⟨a, b, h1⟩
      rw [e, setCell_add_apply, if_neg cA, add_zero]
      simp only [cB]
    · have e : yFaceStep dx t fyp fym f j i res
          = setCell (setCell res j i (fun d => res j i d - dx * f j i d)) (j - 1) i
              (fun d => setCell res j i (fun d => res j i d - dx * f j i d) (j - 1) i d
                + dx * f j i d) := by
        unfold yFaceStep; rw [if_neg h1, if_neg h2]
      have cA : (j' = j ∧ i' = i ∧ (j = t.jbeg ∨ j ≠ t.jbeg + t.nlocy)) ↔ (j' = j ∧ i' = i) := by
        constructor
        · rintro ⟨a, b, _⟩; exact ⟨a, b⟩
        · rintro ⟨a, b⟩; exact ⟨a, b, Or.inr h2⟩
      have cB : (j' = j - 1 ∧ i' = i ∧ j ≠ t.jbeg) ↔ (j' = j - 1 ∧ i' = i) := by
        constructor
        · rintro ⟨a, b, _⟩; exact ⟨a, b⟩
        · rintro ⟨a, b⟩; exact ⟨a, b, h1⟩
      rw [e, setCell_add_apply, setCell_sub_apply]
      simp only [cA, cB]


/-- One row of x-faces, seen from a cell in an owned column. -/
theorem xRow_apply (dy : K) (t : Tile) (fxp fxm : Grid K) (f : Int → Int → Fin 4 → K)
    (j0 : Int) (s0 : Grid K) (j i : Int) (d : Fin 4)
    (hi1 : t.ibeg ≤ i) (hi2 : i < t.ibeg + t.nlocx) :
    forRange t.ibeg (t.nlocx + 1) (fun x res => xFaceStep dy t fxp fxm f j0 x res) s0 j i d
      = s0 j i d + (if j = j0 then dy * (f j0 (i + 1) d - f j0 i d) else 0) := by
  have key := forRange_invariant
    (fun (m : Nat) (s : Grid K) => ∀ (j i : Int) (d : Fin 4), t.ibeg ≤ i → i < t.ibeg + t.nlocx →
      s j i d = s0 j i d
        + (if j = j0 ∧ i < t.ibeg + m then -(dy * f j0 i d) else 0)
        + (if j = j0 ∧ i + 1 < t.ibeg + m then dy * f j0 (i + 1) d else 0))
    t.ibeg (t.nlocx + 1) (fun x res => xFaceStep dy t fxp fxm f j0 x res) s0
    (by
      intro j i d h1 _
      have a : ¬ (j = j0 ∧ i < t.ibeg + ((0 : Nat) : Int)) := by push_cast; omega
      have b : ¬ (j = j0 ∧ i + 1 < t.ibeg + ((0 : Nat) : Int)) := by push_cast; omega
      rw [if_neg a, if_neg b]; ring)
    (by
      intro m s' hm ih j i d h1 h2
      beta_reduce
      rw [xFaceStep_apply, ih j i d h1 h2]
      push_cast
      by_cases hj : j = j0
      · subst hj
        by_cases hx : i = t.ibeg + m
        · subst hx
          rw [if_neg (by omega), if_neg (by omega), if_pos ⟨rfl, rfl, by omega⟩,
            if_neg (by omega), if_pos ⟨rfl, by omega⟩, if_neg (by omega)]
          ring
        · by_cases hy : i = t.ibeg + m - 1
          · subst hy
            rw [if_pos ⟨rfl, by omega⟩, if_neg (by omega), if_neg (by omega),
              if_pos ⟨rfl, rfl, by omega⟩, if_pos ⟨rfl, by omega⟩, if_pos ⟨rfl, by omega⟩]
            have e : t.ibeg + (m : Int) - 1 + 1 = t.ibeg + m := by ring
            rw [e]
            ring
          · have c1 : i < t.ibeg + ((m : Int) + 1) ↔ i < t.ibeg + m := by omega
            have c2 : i + 1 < t.ibeg + ((m : Int) + 1) ↔ i + 1 < t.ibeg + m := by omega
            have a : ¬ (j = j ∧ i = t.ibeg + (m : Int)
                ∧ (t.ibeg + (m : Int) = t.ibeg ∨ t.ibeg + (m : Int) ≠ t.ibeg + t.nlocx)) :=
              fun h => hx h.2.1
            have b : ¬ (j = j ∧ i = t.ibeg + (m : Int) - 1 ∧ t.ibeg + (m : Int) ≠ t.ibeg) :=
              fun h => hy h.2.1
            rw [if_neg a, if_neg b]
            simp only [c1, c2]
            ring
      · simp only [hj, false_and, if_false]
        ring)
  rw [key j i d hi1 hi2]
  by_cases hj : j = j0
  · rw [if_pos ⟨hj, by omega⟩, if_pos ⟨hj, by omega⟩, if_pos hj]; ring
  · rw [if_neg (fun h => hj h.1), if_neg (fun h => hj h.1), if_neg hj]; ring

/-- The x-flux loop, seen from a cell in an owned column. -/
theorem xFluxLoop_apply (dy : K) (t : Tile) (fxp fxm : Grid K) (f : Int → Int → Fin 4 → K)
    (s0 : Grid K) (j i : Int) (d : Fin 4) (hi1 : t.ibeg ≤ i) (hi2 : i < t.ibeg + t.nlocx) :
    xFluxLoop dy t fxp fxm f s0 j i d
      = s0 j i d + (if t.jbeg ≤ j ∧ j < t.jbeg + t.nlocy
          then dy * (f j (i + 1) d - f j i d) else 0) := by
  unfold xFluxLoop
  have key := forRange_invariant
    (fun (m : Nat) (s : Grid K) => ∀ (j i : Int) (d : Fin 4), t.ibeg ≤ i → i < t.ibeg + t.nlocx →
      s j i d = s0 j i d + (if t.jbeg ≤ j ∧ j < t.jbeg + m
          then dy * (f j (i + 1) d - f j i d) else 0))
    t.jbeg t.nlocy
    (fun j res =>
      forRange t.ibeg (t.nlocx + 1) (fun i res => xFaceStep dy t fxp fxm f j i res) res) s0
    (by
      intro j i d _ _
      have a : ¬ (t.jbeg ≤ j ∧ j < t.jbeg + ((0 : Nat) : Int)) := by push_cast; omega
      rw [if_neg a, add_zero])
    (by
      intro m s' hm ih j i d h1 h2
      beta_reduce
      rw [xRow_apply dy t fxp fxm f _ s' j i d h1 h2, ih j i d h1 h2]
      push_cast
      by_cases hj : j = t.jbeg + m
      · subst hj
        rw [if_neg (by omega), if_pos rfl, if_pos (by omega)]
        ring
      · have c : j < t.jbeg + ((m : Int) + 1) ↔ j < t.jbeg + m := by omega
        rw [if_neg hj]
        simp only [c]
        ring)
  exact key j i d hi1 hi2


/-- One row of y-faces, seen from a cell in an owned column. -/
theorem yRow_apply (dx : K) (t : Tile) (fyp fym : Grid K) (f : Int → Int → Fin 4 → K)
    (y : Int) (s0 : Grid K) (j i : Int) (d : Fin 4)
    (hi1 : t.ibeg ≤ i) (hi2 : i < t.ibeg + t.nlocx) :
    forRange t.ibeg t.nlocx (fun x res => yFaceStep dx t fyp fym f y x res) s0 j i d
      = s0 j i d
        + (if j = y ∧ (y = t.jbeg ∨ y ≠ t.jbeg + t.nlocy) then -(dx * f y i d) else 0)
        + (if j = y - 1 ∧ y ≠ t.jbeg then dx * f y i d else 0) := by
  have key := forRange_invariant
    (fun (m : Nat) (s : Grid K) => ∀ (j i : Int) (d : Fin 4), t.ibeg ≤ i →
      s j i d = s0 j i d
        + (if i < t.ibeg + m ∧ j = y ∧ (y = t.jbeg ∨ y ≠ t.jbeg + t.nlocy)
            then -(dx * f y i d) else 0)
        + (if i < t.ibeg + m ∧ j = y - 1 ∧ y ≠ t.jbeg then dx * f y i d else 0))
    t.ibeg t.nlocx (fun x res => yFaceStep dx t fyp fym f y x res) s0
    (by
      intro j i d h1
      have a : ¬ (i < t.ibeg + ((0 : Nat) : Int) ∧ j = y
          ∧ (y = t.jbeg ∨ y ≠ t.jbeg + t.nlocy)) := by push_cast; omega
      have b : ¬ (i < t.ibeg + ((0 : Nat) : Int) ∧ j = y - 1 ∧ y ≠ t.jbeg) := by
        push_cast; omega
      rw [if_neg a, if_neg b]; ring)
    (by
      intro m s' hm ih j i d h1
      beta_reduce
      rw [yFaceStep_apply, ih j i d h1]
      push_cast
      by_cases hx : i = t.ibeg + m
      · subst hx
        have a : ¬ (t.ibeg + (m : Int) < t.ibeg + m ∧ j = y
            ∧ (y = t.jbeg ∨ y ≠ t.jbeg + t.nlocy)) := by omega
        have b : ¬ (t.ibeg + (m : Int) < t.ibeg + m ∧ j = y - 1 ∧ y ≠ t.jbeg) := by omega
        have p : t.ibeg + (m : Int) < t.ibeg + (m + 1) := by omega
        rw [if_neg a, if_neg b]
        simp only [p, true_and, eq_self_iff_true]
        ring
      · have a : ¬ (j = y ∧ i = t.ibeg + (m : Int)
            ∧ (y = t.jbeg ∨ y ≠ t.jbeg + t.nlocy)) := fun h => hx h.2.1
        have b : ¬ (j = y - 1 ∧ i = t.ibeg + (m : Int) ∧ y ≠ t.jbeg) := fun h => hx h.2.1
        have c : i < t.ibeg + ((m : Int) + 1) ↔ i < t.ibeg + m := by omega
        rw [if_neg a, if_neg b]
        simp only [c]
        ring)
  rw [key j i d hi1]
  have c : i < t.ibeg + (t.nlocx : Int) ↔ True := by simp [hi2]
  simp only [c, true_and]

/-- The y-flux loop, seen from an owned cell. -/
theorem yFluxLoop_apply (dx : K) (t : Tile) (fyp fym : Grid K) (f : Int → Int → Fin 4 → K)
    (s0 : Grid K) (j i : Int) (d : Fin 4) (h : t.owned j i) :
    yFluxLoop dx t fyp fym f s0 j i d = s0 j i d + dx * (f (j + 1) i d - f j i d) := by
  obtain ⟨hj1, hj2, hi1, hi2⟩ := h
  unfold yFluxLoop
  have key := forRange_invariant
    (fun (m : Nat) (s : Grid K) => ∀ (j i : Int) (d : Fin 4), t.jbeg ≤ j → j < t.jbeg + t.nlocy →
      t.ibeg ≤ i → i < t.ibeg + t.nlocx →
      s j i d = s0 j i d
        + (if j < t.jbeg + m then -(dx * f j i d) else 0)
        + (if j + 1 < t.jbeg + m then dx * f (j + 1) i d else 0))
    t.jbeg (t.nlocy + 1)
    (fun j res =>
      forRange t.ibeg t.nlocx (fun i res => yFaceStep dx t fyp fym f j i res) res) s0
    (by
      intro j i d h1 _ _ _
      have a : ¬ (j < t.jbeg + ((0 : Nat) : Int)) := by push_cast; omega
      have b : ¬ (j + 1 < t.jbeg + ((0 : Nat) : Int)) := by push_cast; omega
      rw [if_neg a, if_neg b]; ring)
    (by
      intro m s' hm ih j i d h1 h2 h3 h4
      beta_reduce
      rw [yRow_apply dx t fyp fym f _ s' j i d h3 h4, ih j i d h1 h2 h3 h4]
      push_cast
      by_cases hx : j = t.jbeg + m
      · subst hx
        have a : ¬ (t.jbeg + (m : Int) < t.jbeg + m) := by omega
        have b : ¬ (t.jbeg + (m : Int) + 1 < t.jbeg + m) := by omega
        have c : (t.jbeg + (m : Int) = t.jbeg + m
            ∧ (t.jbeg + (m : Int) = t.jbeg ∨ t.jbeg + (m : Int) ≠ t.jbeg + t.nlocy)) := by
          refine ⟨rfl, Or.inr ?_⟩; omega
        have e : ¬ (t.jbeg + (m : Int) = t.jbeg + m - 1 ∧ t.jbeg + (m : Int) ≠ t.jbeg) := by
          omega
        have p : t.jbeg + (m : Int) < t.jbeg + (m + 1) := by omega
        have q : ¬ (t.jbeg + (m : Int) + 1 < t.jbeg + (m + 1)) := by omega
        rw [if_neg a, if_neg b, if_pos c, if_neg e, if_pos p, if_neg q]
        ring
      · by_cases hy : j = t.jbeg + m - 1
        · subst hy
          have a : t.jbeg + (m : Int) - 1 < t.jbeg + m := by omega
          have b : ¬ (t.jbeg + (m : Int) - 1 + 1 < t.jbeg + m) := by omega
          have c : ¬ (t.jbeg + (m : Int) - 1 = t.jbeg + m
              ∧ (t.jbeg + (m : Int) = t.jbeg ∨ t.jbeg + (m : Int) ≠ t.jbeg + t.nlocy)) := by
            omega
          have e : (t.jbeg + (m : Int) - 1 = t.jbeg + m - 1 ∧ t.jbeg + (m : Int) ≠ t.jbeg) := by
            refine ⟨rfl, ?_⟩; omega
          have p : t.jbeg + (m : Int) - 1 < t.jbeg + (m + 1) := by omega
          have q : t.jbeg + (m : Int) - 1 + 1 < t.jbeg + (m + 1) := by omega
          have r : t.jbeg + (m : Int) - 1 + 1 = t.jbeg + m := by ring
          rw [if_pos a, if_neg b, if_neg c, if_pos e, if_pos p, if_pos q, r]
          ring
        · have a : ¬ (j = t.jbeg + (m : Int)
              ∧ (t.jbeg + (m : Int) = t.jbeg ∨ t.jbeg + (m : Int) ≠ t.jbeg + t.nlocy)) :=
            fun h => hx h.1
          have b : ¬ (j = t.jbeg + (m : Int) - 1 ∧ t.jbeg + (m : Int) ≠ t.jbeg) :=
            fun h => hy h.1
          have c1 : j < t.jbeg + ((m : Int) + 1) ↔ j < t.jbeg + m := by omega
          have c2 : j + 1 < t.jbeg + ((m : Int) + 1) ↔ j + 1 < t.jbeg + m := by omega
          rw [if_neg a, if_neg b]
          simp only [c1, c2]
          ring)
  rw [key j i d hj1 hj2 hi1 hi2]
  have a : j < t.jbeg + ((t.nlocy + 1 : Nat) : Int) := by push_cast; omega
  have b : j + 1 < t.jbeg + ((t.nlocy + 1 : Nat) : Int) := by push_cast; omega
  rw [if_pos a, if_pos b]
  ring

/-- Per-cell closed form of the flux accumulation: on an owned cell the result
is `-(1/(dx*dy))` times the x-flux difference times `dy` plus the y-flux
difference times `dx`. -/
theorem assembleResidual_apply (dx dy : K) (t : Tile) (fx fy : Grid K × Grid K)
    (fluxX fluxY : Int → Int → Fin 4 → K) (R : Grid K) (j i : Int) (d : Fin 4)
    (h : t.owned j i) :
    assembleResidual dx dy t fx fy fluxX fluxY R j i d
      = (dy * (fluxX j (i + 1) d - fluxX j i d) + dx * (fluxY (j + 1) i d - fluxY j i d))
        * -(1 / (dx * dy)) := by
  unfold assembleResidual
  rw [scaleResidual_apply, if_pos h]
  rw [yFluxLoop_apply dx t fy.1 fy.2 fluxY _ j i d h,
    xFluxLoop_apply dy t fx.1 fx.2 fluxX _ j i d h.2.2.1 h.2.2.2,
    if_pos ⟨h.1, h.2.1⟩, zeroResidual_apply, if_pos h]
  ring


/-- Telescoping of the flux differences over a box of cells. -/
theorem sum_flux_differences (A B : Nat → Nat → K) (n m : Nat) (dx dy c : K) :
    (∑ k in Finset.range m, ∑ l in Finset.range n,
        (dy * (A k (l + 1) - A k l) + dx * (B (k + 1) l - B k l)) * c)
      = ((∑ k in Finset.range m, dy * (A k n - A k 0))
          + (∑ l in Finset.range n, dx * (B m l - B 0 l))) * c := by
  have h1 : ∀ k, (∑ l in Finset.range n, dy * (A k (l + 1) - A k l))
      = dy * (A k n - A k 0) := by
    intro k
    rw [← Finset.mul_sum, Finset.sum_range_sub (fun l => A k l) n]
  have h2 : ∀ l, (∑ k in Finset.range m, dx * (B (k + 1) l - B k l))
      = dx * (B m l - B 0 l) := by
    intro l
    rw [← Finset.mul_sum, Finset.sum_range_sub (fun k => B k l) m]
  simp only [← Finset.sum_mul, Finset.sum_add_distrib, h1]
  congr 2
  rw [Finset.sum_comm]
  exact Finset.sum_congr rfl (fun l _ => h2 l)

/-- The sum of the assembled residual over the owned cells is `-(1/(dx*dy))`
times the net flux through the boundary faces of the tile. -/
theorem ownedSum_assembleResidual (dx dy : K) (t : Tile) (fx fy : Grid K × Grid K)
    (fluxX fluxY : Int → Int → Fin 4 → K) (R : Grid K) (d : Fin 4) :
    ownedSum t (assembleResidual dx dy t fx fy fluxX fluxY R) d
      = -(1 / (dx * dy)) * boundaryNetFlux dx dy t fluxX fluxY d := by
  unfold ownedSum boundaryNetFlux
  have hcell : ∀ k ∈ Finset.range t.nlocy, ∀ l ∈ Finset.range t.nlocx,
      assembleResidual dx dy t fx fy fluxX fluxY R (t.jbeg + (k : Int)) (t.ibeg + (l : Int)) d
        = (dy * (fluxX (t.jbeg + (k : Int)) (t.ibeg + ((l + 1 : Nat) : Int)) d
              - fluxX (t.jbeg + (k : Int)) (t.ibeg + (l : Int)) d)
            + dx * (fluxY (t.jbeg + ((k + 1 : Nat) : Int)) (t.ibeg + (l : Int)) d
              - fluxY (t.jbeg + (k : Int)) (t.ibeg + (l : Int)) d)) * -(1 / (dx * dy)) := by
    intro k hk l hl
    have hk' := Finset.mem_range.mp hk
    have hl' := Finset.mem_range.mp hl
    rw [assembleResidual_apply dx dy t fx fy fluxX fluxY R _ _ d
      ⟨by omega, by omega, by omega, by omega⟩]
    have e1 : t.ibeg + (l : Int) + 1 = t.ibeg + ((l + 1 : Nat) : Int) := by push_cast; ring
    have e2 : t.jbeg + (k : Int) + 1 = t.jbeg + ((k + 1 : Nat) : Int) := by push_cast; ring
    rw [e1, e2]
  rw [Finset.sum_congr rfl (fun k hk => Finset.sum_congr rfl (fun l hl => hcell k hk l hl))]
  rw [sum_flux_differences (fun k l => fluxX (t.jbeg + (k : Int)) (t.ibeg + (l : Int)) d)
    (fun k l => fluxY (t.jbeg + (k : Int)) (t.ibeg + (l : Int)) d) t.nlocx t.nlocy dx dy]
  simp only [Nat.cast_zero, add_zero]
  ring


/-! ### Split-flux fields -/

theorem forRange_prod {σ τ : Type} (beg : Int) (n : Nat) (g : Int → σ → σ) (h : Int → τ → τ)
    (s : σ × τ) :
    forRange beg n (fun x f => (g x f.1, h x f.2)) s
      = (forRange beg n g s.1, forRange beg n h s.2) := by
  induction n with
  | zero => rfl
  | succ k ih => rw [forRange_succ, forRange_succ, forRange_succ, ih]

/-- Closed form of a loop nest that stores a pair of values in every cell of a
box. -/
theorem pairFill_apply (jb ib : Int) (n m : Nat) (a b : Int → Int → Fin 4 → K)
    (f0 : Grid K × Grid K) (j i : Int) :
    (forRange jb n (fun j f =>
        forRange ib m (fun i f => (setCell f.1 j i (a j i), setCell f.2 j i (b j i))) f) f0).1 j i
      = (if (jb ≤ j ∧ j < jb + n) ∧ (ib ≤ i ∧ i < ib + m) then a j i else f0.1 j i)
    ∧ (forRange jb n (fun j f =>
        forRange ib m (fun i f => (setCell f.1 j i (a j i), setCell f.2 j i (b j i))) f) f0).2 j i
      = (if (jb ≤ j ∧ j < jb + n) ∧ (ib ≤ i ∧ i < ib + m) then b j i else f0.2 j i) := by
  have e : (fun (j : Int) (f : Grid K × Grid K) =>
        forRange ib m (fun i f => (setCell f.1 j i (a j i), setCell f.2 j i (b j i))) f)
      = (fun j f => (forRange ib m (fun i s => setCell s j i (a j i)) f.1,
          forRange ib m (fun i s => setCell s j i (b j i)) f.2)) := by
    funext j f
    exact forRange_prod ib m (fun i s => setCell s j i (a j i))
      (fun i s => setCell s j i (b j i)) f
  rw [e, forRange_prod jb n (fun j s => forRange ib m (fun i s => setCell s j i (a j i)) s)
    (fun j s => forRange ib m (fun i s => setCell s j i (b j i)) s) f0]
  exact ⟨boxMap_apply jb ib n m (fun j i _ => a j i) f0.1 j i,
    boxMap_apply jb ib n m (fun j i _ => b j i) f0.2 j i⟩

/-- The x-split fluxes are stored on the owned rows, three columns on either
side of the owned columns included. -/
theorem fillSplitX_apply (gas_gamma : K) (t : Tile) (u : Grid K) (lambdax : K)
    (f : Grid K × Grid K) (j i : Int)
    (hj : t.jbeg ≤ j ∧ j < t.jbeg + t.nlocy) (hi : t.ibeg - 3 ≤ i ∧ i < t.ibeg + t.nlocx + 3) :
    (fillSplitX gas_gamma t u lambdax f).1 j i = (split_fluxes gas_gamma (u j i) 1 0 lambdax).1
    ∧ (fillSplitX gas_gamma t u lambdax f).2 j i
        = (split_fluxes gas_gamma (u j i) 1 0 lambdax).2 := by
  have h := pairFill_apply t.jbeg (t.ibeg - sw) t.nlocy (t.nlocx + 2 * sw)
    (fun j i => (split_fluxes gas_gamma (u j i) 1 0 lambdax).1)
    (fun j i => (split_fluxes gas_gamma (u j i) 1 0 lambdax).2) f j i
  have c : (t.jbeg ≤ j ∧ j < t.jbeg + t.nlocy)
      ∧ (t.ibeg - sw ≤ i ∧ i < t.ibeg - sw + ((t.nlocx + 2 * sw : Nat) : Int)) := by
    refine ⟨hj, ?_⟩
    unfold sw; push_cast; omega
  rw [if_pos c, if_pos c] at h
  exact h

/-- The y-split fluxes are stored on the owned columns, three rows on either
side of the owned rows included. -/
theorem fillSplitY_apply (gas_gamma : K) (t : Tile) (u : Grid K) (lambday : K)
    (f : Grid K × Grid K) (j i : Int)
    (hj : t.jbeg - 3 ≤ j ∧ j < t.jbeg + t.nlocy + 3) (hi : t.ibeg ≤ i ∧ i < t.ibeg + t.nlocx) :
    (fillSplitY gas_gamma t u lambday f).1 j i = (split_fluxes gas_gamma (u j i) 0 1 lambday).1
    ∧ (fillSplitY gas_gamma t u lambday f).2 j i
        = (split_fluxes gas_gamma (u j i) 0 1 lambday).2 := by
  have h := pairFill_apply (t.jbeg - sw) t.ibeg (t.nlocy + 2 * sw) t.nlocx
    (fun j i => (split_fluxes gas_gamma (u j i) 0 1 lambday).1)
    (fun j i => (split_fluxes gas_gamma (u j i) 0 1 lambday).2) f j i
  have c : (t.jbeg - sw ≤ j ∧ j < t.jbeg - sw + ((t.nlocy + 2 * sw : Nat) : Int))
      ∧ (t.ibeg ≤ i ∧ i < t.ibeg + t.nlocx) := by
    refine ⟨?_, hi⟩
    unfold sw; push_cast; omega
  rw [if_pos c, if_pos c] at h
  exact h

/-! ### The rhs function -/

/-- `RHSFunction` raises exactly when the boundary step does; otherwise every
owned cell of the residual it returns is zero, whatever the state: each owned
cell is charged `flux0` once negatively and once positively per axis. -/
theorem RHSFunction_residual (bc : BoundaryConfig) (sqrt : K → K) (gas_gamma dx dy : K)
    (t : Tile) (sc : Scratch K) (otherLamx otherLamy : List K) (R u : Grid K) :
    (farfieldRaised bc t
      ∧ RHSFunction bc sqrt gas_gamma dx dy t sc otherLamx otherLamy R u
          = .error "Not implemented")
    ∨ (¬ farfieldRaised bc t
      ∧ ∃ res, RHSFunction bc sqrt gas_gamma dx dy t sc otherLamx otherLamy R u = .ok res
          ∧ ∀ j i d, t.owned j i → res j i d = 0) := by
  unfold RHSFunction
  rw [boundaryStep_eq]
  by_cases hf : farfieldRaised bc t
  · left
    rw [if_pos hf]
    exact ⟨hf, rfl⟩
  · right
    rw [if_neg hf]
    refine ⟨hf, _, rfl, ?_⟩
    intro j i d h
    rw [assembleResidual_apply _ _ _ _ _ _ _ _ j i d h]
    ring


/-- The boundary net flux vanishes when opposite boundary faces carry the same
flux. -/
theorem boundaryNetFlux_periodic (dx dy : K) (t : Tile) (fluxX fluxY : Int → Int → Fin 4 → K)
    (d : Fin 4)
    (hx : ∀ j, t.jbeg ≤ j → j < t.jbeg + t.nlocy →
      fluxX j (t.ibeg + t.nlocx) d = fluxX j t.ibeg d)
    (hy : ∀ i, t.ibeg ≤ i → i < t.ibeg + t.nlocx →
      fluxY (t.jbeg + t.nlocy) i d = fluxY t.jbeg i d) :
    boundaryNetFlux dx dy t fluxX fluxY d = 0 := by
  unfold boundaryNetFlux
  rw [Finset.sum_eq_zero, Finset.sum_eq_zero, add_zero]
  · intro l hl
    have hl' := Finset.mem_range.mp hl
    rw [hy _ (by omega) (by omega), sub_self, mul_zero]
  · intro k hk
    have hk' := Finset.mem_range.mp hk
    rw [hx _ (by omega) (by omega), sub_self, mul_zero]

/-- The reconstructions at two x-faces agree when the split fluxes agree on
the two stencils. -/
theorem UL_UR_x_congr (a b : Grid K) (j i i2 : Int) (d : Fin 4)
    (ha : ∀ k : Int, -3 ≤ k → k ≤ 2 → a j (i + k) d = a j (i2 + k) d)
    (hb : ∀ k : Int, -3 ≤ k → k ≤ 2 → b j (i + k) d = b j (i2 + k) d) :
    UL_x a j i d + UR_x b j i d = UL_x a j i2 d + UR_x b j i2 d := by
  have a0 := ha 0 (by norm_num) (by norm_num)
  have b0 := hb 0 (by norm_num) (by norm_num)
  rw [add_zero, add_zero] at a0 b0
  unfold UL_x UR_x
  simp only [sub_eq_add_neg]
  rw [ha (-3) (by norm_num) (by norm_num), ha (-2) (by norm_num) (by norm_num),
    ha (-1) (by norm_num) (by norm_num), a0, ha 1 (by norm_num) (by norm_num),
    hb 2 (by norm_num) (by norm_num), hb 1 (by norm_num) (by norm_num), b0,
    hb (-1) (by norm_num) (by norm_num), hb (-2) (by norm_num) (by norm_num)]

/-- The reconstructions at two y-faces agree when the split fluxes agree on
the two stencils. -/
theorem UL_UR_y_congr (a b : Grid K) (j j2 i : Int) (d : Fin 4)
    (ha : ∀ k : Int, -3 ≤ k → k ≤ 2 → a (j + k) i d = a (j2 + k) i d)
    (hb : ∀ k : Int, -3 ≤ k → k ≤ 2 → b (j + k) i d = b (j2 + k) i d) :
    UL_y a j i d + UR_y b j i d = UL_y a j2 i d + UR_y b j2 i d := by
  have a0 := ha 0 (by norm_num) (by norm_num)
  have b0 := hb 0 (by norm_num) (by norm_num)
  rw [add_zero, add_zero] at a0 b0
  unfold UL_y UR_y
  simp only [sub_eq_add_neg]
  rw [ha (-3) (by norm_num) (by norm_num), ha (-2) (by norm_num) (by norm_num),
    ha (-1) (by norm_num) (by norm_num), a0, ha 1 (by norm_num) (by norm_num),
    hb 2 (by norm_num) (by norm_num), hb 1 (by norm_num) (by norm_num), b0,
    hb (-1) (by norm_num) (by norm_num), hb (-2) (by norm_num) (by norm_num)]

/-- C2: the flux accumulation of `RHSFunction` is conservative. (1) For any face
flux values, the sum of the returned residual over the owned cells is
`-(1/(dx*dy))` times the net flux through the boundary faces of the tile: every
interior face cancels. (2) The sum is zero when the flux on opposite boundary
faces agrees. (3) That is the case for the flux `UL + UR` when the ghost cells
hold the periodic copies of the owned cells. (4) The residual that
`RHSFunction` returns sums to zero over the owned cells, for each variable. -/
theorem residual_conservation (dx dy : K) (t : Tile) (d : Fin 4) :
    (∀ (fx fy : Grid K × Grid K) (fluxX fluxY : Int → Int → Fin 4 → K) (R : Grid K),
        ownedSum t (assembleResidual dx dy t fx fy fluxX fluxY R) d
          = -(1 / (dx * dy)) * boundaryNetFlux dx dy t fluxX fluxY d)
    ∧ (∀ (fx fy : Grid K × Grid K) (fluxX fluxY : Int → Int → Fin 4 → K) (R : Grid K),
        (∀ j, t.jbeg ≤ j → j < t.jbeg + t.nlocy →
          fluxX j (t.ibeg + t.nlocx) d = fluxX j t.ibeg d) →
        (∀ i, t.ibeg ≤ i → i < t.ibeg + t.nlocx →
          fluxY (t.jbeg + t.nlocy) i d = fluxY t.jbeg i d) →
        ownedSum t (assembleResidual dx dy t fx fy fluxX fluxY R) d = 0)
    ∧ (∀ (gas_gamma lambdax lambday : K) (f g : Grid K × Grid K) (R u : Grid K),
        (∀ j i, t.jbeg ≤ j → j < t.jbeg + t.nlocy → t.ibeg - 3 ≤ i → i < t.ibeg + 3 →
          u j (i + t.nlocx) = u j i) →
        (∀ j i, t.ibeg ≤ i → i < t.ibeg + t.nlocx → t.jbeg - 3 ≤ j → j < t.jbeg + 3 →
          u (j + t.nlocy) i = u j i) →
        ownedSum t (assembleResidual dx dy t
          (fillSplitX gas_gamma t u lambdax f) (fillSplitY gas_gamma t u lambday g)
          (fun j i d => UL_x (fillSplitX gas_gamma t u lambdax f).1 j i d
            + UR_x (fillSplitX gas_gamma t u lambdax f).2 j i d)
          (fun j i d => UL_y (fillSplitY gas_gamma t u lambday g).1 j i d
            + UR_y (fillSplitY gas_gamma t u lambday g).2 j i d) R) d = 0)
    ∧ (∀ (bc : BoundaryConfig) (sqrt : K → K) (gas_gamma : K) (sc : Scratch K)
        (otherLamx otherLamy : List K) (R u res : Grid K),
        RHSFunction bc sqrt gas_gamma dx dy t sc otherLamx otherLamy R u = .ok res →
        ownedSum t res d = 0) := by
  refine ⟨?_, ?_, ?_, ?_⟩
  · intro fx fy fluxX fluxY R
    exact ownedSum_assembleResidual dx dy t fx fy fluxX fluxY R d
  · intro fx fy fluxX fluxY R hx hy
    rw [ownedSum_assembleResidual, boundaryNetFlux_periodic dx dy t fluxX fluxY d hx hy,
      mul_zero]
  · intro gas_gamma lambdax lambday f g R u hx hy
    rw [ownedSum_assembleResidual, boundaryNetFlux_periodic, mul_zero]
    · intro j h1 h2
      refine UL_UR_x_congr _ _ j _ _ d ?_ ?_
      · intro k k1 k2
        have e : t.ibeg + (t.nlocx : Int) + k = t.ibeg + k + t.nlocx := by ring
        rw [e, (fillSplitX_apply gas_gamma t u lambdax f j _ ⟨h1, h2⟩ ⟨by omega, by omega⟩).1,
          (fillSplitX_apply gas_gamma t u lambdax f j _ ⟨h1, h2⟩ ⟨by omega, by omega⟩).1,
          hx j _ h1 h2 (by omega) (by omega)]
      · intro k k1 k2
        have e : t.ibeg + (t.nlocx : Int) + k = t.ibeg + k + t.nlocx := by ring
        rw [e, (fillSplitX_apply gas_gamma t u lambdax f j _ ⟨h1, h2⟩ ⟨by omega, by omega⟩).2,
          (fillSplitX_apply gas_gamma t u lambdax f j _ ⟨h1, h2⟩ ⟨by omega, by omega⟩).2,
          hx j _ h1 h2 (by omega) (by omega)]
    · intro i h1 h2
      refine UL_UR_y_congr _ _ _ _ i d ?_ ?_
      · intro k k1 k2
        have e : t.jbeg + (t.nlocy : Int) + k = t.jbeg + k + t.nlocy := by ring
        rw [e, (fillSplitY_apply gas_gamma t u lambday g _ i ⟨by omega, by omega⟩ ⟨h1, h2⟩).1,
          (fillSplitY_apply gas_gamma t u lambday g _ i ⟨by omega, by omega⟩ ⟨h1, h2⟩).1,
          hy _ i h1 h2 (by omega) (by omega)]
      · intro k k1 k2
        have e : t.jbeg + (t.nlocy : Int) + k = t.jbeg + k + t.nlocy := by ring
        rw [e, (fillSplitY_apply gas_gamma t u lambday g _ i ⟨by omega, by omega⟩ ⟨h1, h2⟩).2,
          (fillSplitY_apply gas_gamma t u lambday g _ i ⟨by omega, by omega⟩ ⟨h1, h2⟩).2,
          hy _ i h1 h2 (by omega) (by omega)]
  · intro bc sqrt gas_gamma sc otherLamx otherLamy R u res h
    unfold RHSFunction at h
    rw [boundaryStep_eq] at h
    by_cases hf : farfieldRaised bc t
    · rw [if_pos hf] at h
      cases h
    · rw [if_neg hf] at h
      have e := Except.ok.inj h
      rw [← e, ownedSum_assembleResidual,
        boundaryNetFlux_periodic dx dy t (fun _ _ => sc.flux0) (fun _ _ => sc.flux0) d
          (fun _ _ _ => rfl) (fun _ _ _ => rfl),
        mul_zero]

/-- A concrete instance: a 3 x 3 tile covering a periodic grid, `dx = dy = 1`. -/
theorem residual_conservation_witness :
    (∃ res, RHSFunction allPeriodic Real.sqrt (7 / 5 : ℝ) 1 1 tile3x3
          ⟨0, 0, fun _ => 1, (fun _ _ _ => 0, fun _ _ _ => 0), (fun _ _ _ => 0, fun _ _ _ => 0)⟩
          [] [] (fun _ _ _ => 0) (rampState ℝ) = .ok res
        ∧ ownedSum tile3x3 res 1 = 0)
    ∧ ((∀ j i : Int, tile3x3.jbeg ≤ j → j < tile3x3.jbeg + tile3x3.nlocy →
          tile3x3.ibeg - 3 ≤ i → i < tile3x3.ibeg + 3 →
          periodicState ℝ j (i + tile3x3.nlocx) = periodicState ℝ j i)
        ∧ (∀ j i : Int, tile3x3.ibeg ≤ i → i < tile3x3.ibeg + tile3x3.nlocx →
          tile3x3.jbeg - 3 ≤ j → j < tile3x3.jbeg + 3 →
          periodicState ℝ (j + tile3x3.nlocy) i = periodicState ℝ j i)
        ∧ ownedSum tile3x3 (assembleResidual (1 : ℝ) 1 tile3x3
            (fillSplitX (7 / 5) tile3x3 (periodicState ℝ) 2 (fun _ _ _ => 0, fun _ _ _ => 0))
            (fillSplitY (7 / 5) tile3x3 (periodicState ℝ) 2 (fun _ _ _ => 0, fun _ _ _ => 0))
            (fun j i d =>
              UL_x (fillSplitX (7 / 5) tile3x3 (periodicState ℝ) 2
                  (fun _ _ _ => 0, fun _ _ _ => 0)).1 j i d
              + UR_x (fillSplitX (7 / 5) tile3x3 (periodicState ℝ) 2
                  (fun _ _ _ => 0, fun _ _ _ => 0)).2 j i d)
            (fun j i d =>
              UL_y (fillSplitY (7 / 5) tile3x3 (periodicState ℝ) 2
                  (fun _ _ _ => 0, fun _ _ _ => 0)).1 j i d
              + UR_y (fillSplitY (7 / 5) tile3x3 (periodicState ℝ) 2
                  (fun _ _ _ => 0, fun _ _ _ => 0)).2 j i d)
            (fun _ _ _ => 0)) 1 = 0) := by
  have hx : ∀ j i : Int, tile3x3.jbeg ≤ j → j < tile3x3.jbeg + tile3x3.nlocy →
      tile3x3.ibeg - 3 ≤ i → i < tile3x3.ibeg + 3 →
      periodicState ℝ j (i + tile3x3.nlocx) = periodicState ℝ j i := by
    intro j i _ _ _ _
    simp [periodicState, tile3x3]
  have hy : ∀ j i : Int, tile3x3.ibeg ≤ i → i < tile3x3.ibeg + tile3x3.nlocx →
      tile3x3.jbeg - 3 ≤ j → j < tile3x3.jbeg + 3 →
      periodicState ℝ (j + tile3x3.nlocy) i = periodicState ℝ j i := by
    intro j i _ _ _ _
    simp [periodicState, tile3x3]
  refine ⟨?_, hx, hy, ?_⟩
  · rcases RHSFunction_residual allPeriodic Real.sqrt (7 / 5 : ℝ) 1 1 tile3x3
      ⟨0, 0, fun _ => 1, (fun _ _ _ => 0, fun _ _ _ => 0), (fun _ _ _ => 0, fun _ _ _ => 0)⟩
      [] [] (fun _ _ _ => 0) (rampState ℝ) with h | ⟨_, res, hres, _⟩
    · exact absurd h.1 (by simp [farfieldRaised, allPeriodic])
    · exact ⟨res, hres,
        (residual_conservation (1 : ℝ) 1 tile3x3 1).2.2.2 _ _ _ _ _ _ _ _ res hres⟩
  · exact (residual_conservation (1 : ℝ) 1 tile3x3 1).2.2.1 _ _ _ _ _ _ _ hx hy

/-! ### The face flux that is accumulated -/

theorem weno5_const (c : K) : weno5 c c c c c = c := by
  apply weno5_of_candidates_eq
  · unfold weno5_u1; ring
  · unfold weno5_u2; ring
  · unfold weno5_u3; ring

theorem split_fluxes_x_rampState (j i : Int) (lambda : K) :
    (split_fluxes 2 (rampState K j i) 1 0 lambda).1 1 = (10 + (i : K)) / 2
    ∧ (split_fluxes 2 (rampState K j i) 1 0 lambda).2 1 = (10 + (i : K)) / 2 := by
  constructor <;>
  · simp [split_fluxes, split_fluxes_flux, con2prim, rampState]
    ring

theorem split_fluxes_y_rampState (j i : Int) (lambda : K) :
    (split_fluxes 2 (rampState K j i) 0 1 lambda).1 1 = 0
    ∧ (split_fluxes 2 (rampState K j i) 0 1 lambda).2 1 = 0 := by
  constructor <;> simp [split_fluxes, split_fluxes_flux, con2prim, rampState]

/-- On `rampState` the sum `UL + UR` of the reconstructed x-split fluxes of the
momentum equation at the face between `i-1` and `i` is the pressure at the
face, `10 + i - 1/2`. -/
theorem UL_x_add_UR_x_rampState (lambdax : K) (f : Grid K × Grid K) (i : Int)
    (h1 : 3 ≤ i) (h2 : i ≤ 6) :
    UL_x (fillSplitX 2 tileMid (rampState K) lambdax f).1 4 i 1
      + UR_x (fillSplitX 2 tileMid (rampState K) lambdax f).2 4 i 1
      = 10 + (i : K) - 1 / 2 := by
  have a1 : tileMid.ibeg = 3 := rfl
  have a2 : (tileMid.nlocx : Int) = 3 := rfl
  have hj : tileMid.jbeg ≤ 4 ∧ (4 : Int) < tileMid.jbeg + tileMid.nlocy := by decide
  have hp : ∀ i' : Int, i - 3 ≤ i' → i' ≤ i + 2 →
      (fillSplitX 2 tileMid (rampState K) lambdax f).1 4 i' 1 = (10 + (i' : K)) / 2 := by
    intro i' b1 b2
    rw [(fillSplitX_apply 2 tileMid (rampState K) lambdax f 4 i' hj
      ⟨by omega, by omega⟩).1]
    exact (split_fluxes_x_rampState 4 i' lambdax).1
  have hm : ∀ i' : Int, i - 3 ≤ i' → i' ≤ i + 2 →
      (fillSplitX 2 tileMid (rampState K) lambdax f).2 4 i' 1 = (10 + (i' : K)) / 2 := by
    intro i' b1 b2
    rw [(fillSplitX_apply 2 tileMid (rampState K) lambdax f 4 i' hj
      ⟨by omega, by omega⟩).2]
    exact (split_fluxes_x_rampState 4 i' lambdax).2
  have eL : UL_x (fillSplitX 2 tileMid (rampState K) lambdax f).1 4 i 1
      = 19 / 4 + (i : K) / 2 := by
    unfold UL_x
    rw [hp _ (by omega) (by omega), hp _ (by omega) (by omega), hp _ (by omega) (by omega),
      hp _ (by omega) (by omega), hp _ (by omega) (by omega)]
    apply weno5_of_candidates_eq
    · unfold weno5_u1; push_cast; ring
    · unfold weno5_u2; push_cast; ring
    · unfold weno5_u3; push_cast; ring
  have eR : UR_x (fillSplitX 2 tileMid (rampState K) lambdax f).2 4 i 1
      = 19 / 4 + (i : K) / 2 := by
    unfold UR_x
    rw [hm _ (by omega) (by omega), hm _ (by omega) (by omega), hm _ (by omega) (by omega),
      hm _ (by omega) (by omega), hm _ (by omega) (by omega)]
    apply weno5_of_candidates_eq
    · unfold weno5_u1; push_cast; ring
    · unfold weno5_u2; push_cast; ring
    · unfold weno5_u3; push_cast; ring
  rw [eL, eR]
  ring


/-- On `rampState` the reconstructed y-split fluxes of the x-momentum equation
vanish. -/
theorem UL_y_add_UR_y_rampState (lambday : K) (f : Grid K × Grid K) (j : Int)
    (h1 : 3 ≤ j) (h2 : j ≤ 6) :
    UL_y (fillSplitY 2 tileMid (rampState K) lambday f).1 j 4 1
      + UR_y (fillSplitY 2 tileMid (rampState K) lambday f).2 j 4 1 = 0 := by
  have a1 : tileMid.jbeg = 3 := rfl
  have a2 : (tileMid.nlocy : Int) = 3 := rfl
  have hi : tileMid.ibeg ≤ 4 ∧ (4 : Int) < tileMid.ibeg + tileMid.nlocx := by decide
  have hp : ∀ j' : Int, j - 3 ≤ j' → j' ≤ j + 2 →
      (fillSplitY 2 tileMid (rampState K) lambday f).1 j' 4 1 = 0 := by
    intro j' b1 b2
    rw [(fillSplitY_apply 2 tileMid (rampState K) lambday f j' 4 ⟨by omega, by omega⟩ hi).1]
    exact (split_fluxes_y_rampState j' 4 lambday).1
  have hm : ∀ j' : Int, j - 3 ≤ j' → j' ≤ j + 2 →
      (fillSplitY 2 tileMid (rampState K) lambday f).2 j' 4 1 = 0 := by
    intro j' b1 b2
    rw [(fillSplitY_apply 2 tileMid (rampState K) lambday f j' 4 ⟨by omega, by omega⟩ hi).2]
    exact (split_fluxes_y_rampState j' 4 lambday).2
  unfold UL_y UR_y
  rw [hp _ (by omega) (by omega), hp _ (by omega) (by omega), hp _ (by omega) (by omega),
    hp _ (by omega) (by omega), hp _ (by omega) (by omega),
    hm _ (by omega) (by omega), hm _ (by omega) (by omega), hm _ (by omega) (by omega),
    hm _ (by omega) (by omega), hm _ (by omega) (by omega), weno5_const, add_zero]

/-- C1 (failing input): on the tile `[3,6) x [3,6)` of a periodic 9 x 9 grid with
`dx = dy = 1`, `gas_gamma = 2` and the state `(10 + i, 0, 0, 10 + i)`,
`RHSFunction` returns `0` for the x-momentum residual of cell `(4, 4)`, whatever
the scratch contents; accumulating `UL + UR` at every face, as the claim says,
gives `-1`. The array `flux` that is accumulated is never assigned. -/
theorem RHSFunction_flux_is_not_UL_plus_UR (sqrt : K → K) (sc : Scratch K)
    (otherLamx otherLamy : List K) (R : Grid K) :
    (∃ res, RHSFunction allPeriodic sqrt 2 1 1 tileMid sc otherLamx otherLamy R (rampState K)
        = .ok res ∧ res 4 4 1 = 0)
    ∧ (∀ lambdax lambday : K,
        assembleResidual 1 1 tileMid
          (fillSplitX 2 tileMid (rampState K) lambdax sc.fx)
          (fillSplitY 2 tileMid (rampState K) lambday sc.fy)
          (fun j i d => UL_x (fillSplitX 2 tileMid (rampState K) lambdax sc.fx).1 j i d
            + UR_x (fillSplitX 2 tileMid (rampState K) lambdax sc.fx).2 j i d)
          (fun j i d => UL_y (fillSplitY 2 tileMid (rampState K) lambday sc.fy).1 j i d
            + UR_y (fillSplitY 2 tileMid (rampState K) lambday sc.fy).2 j i d)
          R 4 4 1 = -1) := by
  have ho : tileMid.owned 4 4 := by unfold Tile.owned; decide
  constructor
  · rcases RHSFunction_residual allPeriodic sqrt 2 1 1 tileMid sc otherLamx otherLamy R
      (rampState K) with h | ⟨_, res, hres, hz⟩
    · exact absurd h.1 (by simp [farfieldRaised, allPeriodic])
    · exact ⟨res, hres, hz 4 4 1 ho⟩
  · intro lambdax lambday
    rw [assembleResidual_apply _ _ _ _ _ _ _ _ 4 4 1 ho]
    rw [UL_x_add_UR_x_rampState lambdax sc.fx (4 + 1) (by decide) (by decide),
      UL_x_add_UR_x_rampState lambdax sc.fx 4 (by decide) (by decide),
      UL_y_add_UR_y_rampState lambday sc.fy (4 + 1) (by decide) (by decide),
      UL_y_add_UR_y_rampState lambday sc.fy 4 (by decide) (by decide)]
    push_cast
    norm_num


/-! ### The local wave-speed maximum -/

theorem le_PetscMax_left (a b : K) : a ≤ PetscMax a b := by
  unfold PetscMax; split_ifs with h
  · exact le_of_lt h
  · exact le_refl a

theorem le_PetscMax_right (a b : K) : b ≤ PetscMax a b := by
  unfold PetscMax; split_ifs with h
  · exact le_refl b
  · exact not_lt.mp h

theorem PetscMax_eq (a b : K) : PetscMax a b = a ∨ PetscMax a b = b := by
  unfold PetscMax; split_ifs
  · exact Or.inr rfl
  · exact Or.inl rfl

/-- A running `PetscMax` over a range: the result bounds the start value and
every visited value, and is one of them. -/
theorem forRange_PetscMax (beg : Int) (n : Nat) (g : Int → K) (a : K) :
    a ≤ forRange beg n (fun x s => PetscMax s (g x)) a
    ∧ (∀ x, beg ≤ x → x < beg + n → g x ≤ forRange beg n (fun x s => PetscMax s (g x)) a)
    ∧ (forRange beg n (fun x s => PetscMax s (g x)) a = a
        ∨ ∃ x, beg ≤ x ∧ x < beg + n ∧ forRange beg n (fun x s => PetscMax s (g x)) a = g x) := by
  refine forRange_invariant
    (fun (k : Nat) (s : K) => a ≤ s ∧ (∀ x, beg ≤ x → x < beg + k → g x ≤ s)
      ∧ (s = a ∨ ∃ x, beg ≤ x ∧ x < beg + k ∧ s = g x))
    beg n _ a ?_ ?_
  · refine ⟨le_refl a, ?_, Or.inl rfl⟩
    intro x h1 h2
    push_cast at h2
    omega
  · rintro k s' _ ⟨h1, h2, h3⟩
    refine ⟨le_trans h1 (le_PetscMax_left _ _), ?_, ?_⟩
    · intro x b1 b2
      by_cases hx : x = beg + k
      · subst hx; exact le_PetscMax_right _ _
      · exact le_trans (h2 x b1 (by push_cast at b2; omega)) (le_PetscMax_left _ _)
    · rcases PetscMax_eq s' (g (beg + k)) with e | e
      · rw [e]
        rcases h3 with h | ⟨x, c1, c2, c3⟩
        · exact Or.inl h
        · exact Or.inr ⟨x, c1, by push_cast; omega, c3⟩
      · exact Or.inr ⟨beg + k, by omega, by push_cast; omega, e⟩

/-- A running `PetscMax` over the owned cells: the result bounds the start value
and the value of every owned cell, and is one of them. -/
theorem forCells_PetscMax (t : Tile) (g : Int → Int → K) (a : K) :
    a ≤ forCells t (fun j i s => PetscMax s (g j i)) a
    ∧ (∀ j i, t.owned j i → g j i ≤ forCells t (fun j i s => PetscMax s (g j i)) a)
    ∧ (forCells t (fun j i s => PetscMax s (g j i)) a = a
        ∨ ∃ j i, t.owned j i ∧ forCells t (fun j i s => PetscMax s (g j i)) a = g j i) := by
  unfold forCells
  refine forRange_invariant
    (fun (k : Nat) (s : K) => a ≤ s
      ∧ (∀ j i, t.jbeg ≤ j → j < t.jbeg + k → t.ibeg ≤ i → i < t.ibeg + t.nlocx → g j i ≤ s)
      ∧ (s = a ∨ ∃ j i, (t.jbeg ≤ j ∧ j < t.jbeg + k ∧ t.ibeg ≤ i ∧ i < t.ibeg + t.nlocx)
          ∧ s = g j i))
    t.jbeg t.nlocy _ a ?_ ?_ |> fun h => ⟨h.1, fun j i ho => h.2.1 j i ho.1 ho.2.1 ho.2.2.1 ho.2.2.2,
      h.2.2.imp id (fun ⟨j, i, ho, e⟩ => ⟨j, i, ho, e⟩)⟩
  · refine ⟨le_refl a, ?_, Or.inl rfl⟩
    intro j i h1 h2
    push_cast at h2
    omega
  · rintro k s' _ ⟨h1, h2, h3⟩
    obtain ⟨r1, r2, r3⟩ := forRange_PetscMax t.ibeg t.nlocx (fun i => g (t.jbeg + k) i) s'
    refine ⟨le_trans h1 r1, ?_, ?_⟩
    · intro j i b1 b2 b3 b4
      by_cases hj : j = t.jbeg + k
      · subst hj; exact r2 i b3 b4
      · exact le_trans (h2 j i b1 (by push_cast at b2; omega) b3 b4) r1
    · rcases r3 with e | ⟨x, c1, c2, c3⟩
      · rw [e]
        rcases h3 with h | ⟨j, i, ⟨d1, d2, d3, d4⟩, d5⟩
        · exact Or.inl h
        · exact Or.inr ⟨j, i, ⟨d1, by push_cast; omega, d3, d4⟩, d5⟩
      · exact Or.inr ⟨t.jbeg + k, x, ⟨by omega, by push_cast; omega, c1, c2⟩, c3⟩

/-- What the local wave-speed loop computes: for each axis, the maximum of the
initial content of the accumulator and of the speeds of the owned cells. -/
theorem localLambda_spec (sqrt : K → K) (gas_gamma : K) (t : Tile) (u : Grid K)
    (lambdax0 lambday0 : K) :
    (lambdax0 ≤ (localLambda sqrt gas_gamma t u lambdax0 lambday0).1
      ∧ (∀ j i, t.owned j i → (compute_lambda sqrt gas_gamma (u j i)).1
          ≤ (localLambda sqrt gas_gamma t u lambdax0 lambday0).1)
      ∧ ((localLambda sqrt gas_gamma t u lambdax0 lambday0).1 = lambdax0
          ∨ ∃ j i, t.owned j i ∧ (localLambda sqrt gas_gamma t u lambdax0 lambday0).1
              = (compute_lambda sqrt gas_gamma (u j i)).1))
    ∧ (lambday0 ≤ (localLambda sqrt gas_gamma t u lambdax0 lambday0).2
      ∧ (∀ j i, t.owned j i → (compute_lambda sqrt gas_gamma (u j i)).2
          ≤ (localLambda sqrt gas_gamma t u lambdax0 lambday0).2)
      ∧ ((localLambda sqrt gas_gamma t u lambdax0 lambday0).2 = lambday0
          ∨ ∃ j i, t.owned j i ∧ (localLambda sqrt gas_gamma t u lambdax0 lambday0).2
              = (compute_lambda sqrt gas_gamma (u j i)).2)) := by
  have e : localLambda sqrt gas_gamma t u lambdax0 lambday0
      = (forCells t (fun j i s => PetscMax s (compute_lambda sqrt gas_gamma (u j i)).1) lambdax0,
         forCells t (fun j i s => PetscMax s (compute_lambda sqrt gas_gamma (u j i)).2)
          lambday0) := by
    unfold localLambda forCells
    have inner : (fun (j : Int) (s : K × K) =>
          forRange t.ibeg t.nlocx (fun i s =>
            (PetscMax s.1 (compute_lambda sqrt gas_gamma (u j i)).1,
             PetscMax s.2 (compute_lambda sqrt gas_gamma (u j i)).2)) s)
        = (fun j s =>
          (forRange t.ibeg t.nlocx
              (fun i s => PetscMax s (compute_lambda sqrt gas_gamma (u j i)).1) s.1,
           forRange t.ibeg t.nlocx
              (fun i s => PetscMax s (compute_lambda sqrt gas_gamma (u j i)).2) s.2)) := by
      funext j s
      exact forRange_prod t.ibeg t.nlocx
        (fun i s => PetscMax s (compute_lambda sqrt gas_gamma (u j i)).1)
        (fun i s => PetscMax s (compute_lambda sqrt gas_gamma (u j i)).2) s
    show forRange t.jbeg t.nlocy (fun (j : Int) (s : K × K) =>
          forRange t.ibeg t.nlocx (fun i s =>
            (PetscMax s.1 (compute_lambda sqrt gas_gamma (u j i)).1,
             PetscMax s.2 (compute_lambda sqrt gas_gamma (u j i)).2)) s) (lambdax0, lambday0) = _
    rw [inner]
    exact forRange_prod t.jbeg t.nlocy _ _ (lambdax0, lambday0)
  rw [e]
  exact ⟨forCells_PetscMax t (fun j i => (compute_lambda sqrt gas_gamma (u j i)).1) lambdax0,
    forCells_PetscMax t (fun j i => (compute_lambda sqrt gas_gamma (u j i)).2) lambday0⟩


/-! ### Pointwise properties of the time step and of the reconstruction -/

/-- C14: scale law. For every state and all spacings, `dt_local` with spacings
`dx/2`, `dy/2` is one half of `dt_local` with spacings `dx`, `dy`. -/
theorem dt_local_half_spacing (sqrt : K → K) (gas_gamma dx dy : K) (Con : Fin 4 → K) :
    dt_local sqrt gas_gamma (dx / 2) (dy / 2) Con
      = (1 / 2) * dt_local sqrt gas_gamma dx dy Con := by
  unfold dt_local
  simp only []
  have e : ∀ s d : K, s / (d / 2) = 2 * (s / d) := by
    intro s d
    rw [div_div_eq_mul_div]
    ring
  rw [e, e, ← mul_add, one_div, one_div, mul_inv, one_div]

/-- C15: `compute_lambda` returns the specification's pair `(|vx| + a, |vy| + a)`,
`a = sqrt(gas_gamma * p / rho)` with `p` the pressure of `con2prim`, and
`dt_local` is `1 / (sx/dx + sy/dy)` for this pair. -/
theorem dt_local_eq_compute_lambda (sqrt : K → K) (gas_gamma dx dy : K) (U : Fin 4 → K) :
    compute_lambda sqrt gas_gamma U = localSpeeds_spec sqrt gas_gamma U
    ∧ dt_local sqrt gas_gamma dx dy U
        = 1 / ((compute_lambda sqrt gas_gamma U).1 / dx
              + (compute_lambda sqrt gas_gamma U).2 / dy) := by
  have e : gas_gamma * ((gas_gamma - 1) * (U 3 - 1 / 2 * U 0
        * (U 1 / U 0 * (U 1 / U 0) + U 2 / U 0 * (U 2 / U 0)))) / U 0
      = gas_gamma * ((U 3 - 1 / 2 * U 0 * ((U 1 / U 0) ^ 2 + (U 2 / U 0) ^ 2))
        * (gas_gamma - 1)) / U 0 := by
    ring
  have h : compute_lambda sqrt gas_gamma U = localSpeeds_spec sqrt gas_gamma U := by
    show ((|U 1 / U 0| + sqrt (gas_gamma * ((gas_gamma - 1) * (U 3 - 1 / 2 * U 0
          * (U 1 / U 0 * (U 1 / U 0) + U 2 / U 0 * (U 2 / U 0)))) / U 0),
        |U 2 / U 0| + sqrt (gas_gamma * ((gas_gamma - 1) * (U 3 - 1 / 2 * U 0
          * (U 1 / U 0 * (U 1 / U 0) + U 2 / U 0 * (U 2 / U 0)))) / U 0)) : K × K)
      = (|U 1 / U 0| + sqrt (gas_gamma * ((U 3 - 1 / 2 * U 0
            * ((U 1 / U 0) ^ 2 + (U 2 / U 0) ^ 2)) * (gas_gamma - 1)) / U 0),
         |U 2 / U 0| + sqrt (gas_gamma * ((U 3 - 1 / 2 * U 0
            * ((U 1 / U 0) ^ 2 + (U 2 / U 0) ^ 2)) * (gas_gamma - 1)) / U 0))
    rw [e]
  refine ⟨h, ?_⟩
  rw [h]
  rfl

/-- C16: `weno5` never divides by zero: the smoothness indicators are
non-negative, each `eps + beta_k` is at least `1e-6 > 0`, each unnormalised
weight is positive and so is their sum. -/
theorem weno5_denominators_pos (um2 um1 u0 up1 up2 : K) :
    (0 ≤ weno5_beta1 um2 um1 u0 ∧ 0 ≤ weno5_beta2 um1 u0 up1 ∧ 0 ≤ weno5_beta3 u0 up1 up2)
    ∧ ((0 : K) < 1 / 1000000
      ∧ 1 / 1000000 ≤ weno5_eps + weno5_beta1 um2 um1 u0
      ∧ 1 / 1000000 ≤ weno5_eps + weno5_beta2 um1 u0 up1
      ∧ 1 / 1000000 ≤ weno5_eps + weno5_beta3 u0 up1 up2)
    ∧ ((weno5_eps + weno5_beta1 um2 um1 u0) ^ 2 ≠ 0
      ∧ (weno5_eps + weno5_beta2 um1 u0 up1) ^ 2 ≠ 0
      ∧ (weno5_eps + weno5_beta3 u0 up1 up2) ^ 2 ≠ 0)
    ∧ (0 < weno5_w1 um2 um1 u0 ∧ 0 < weno5_w2 um1 u0 up1 ∧ 0 < weno5_w3 u0 up1 up2)
    ∧ 0 < weno5_w1 um2 um1 u0 + weno5_w2 um1 u0 up1 + weno5_w3 u0 up1 up2 := by
  have b1 := weno5_beta1_nonneg um2 um1 u0
  have b2 := weno5_beta2_nonneg um1 u0 up1
  have b3 := weno5_beta3_nonneg u0 up1 up2
  have p1 := weno5_w1_pos um2 um1 u0
  have p2 := weno5_w2_pos um1 u0 up1
  have p3 := weno5_w3_pos u0 up1 up2
  have e : (weno5_eps : K) = 1 / 1000000 := rfl
  have ep : (0 : K) < 1 / 1000000 := by norm_num
  refine ⟨⟨b1, b2, b3⟩, ⟨ep, ?_, ?_, ?_⟩, ⟨?_, ?_, ?_⟩, ⟨p1, p2, p3⟩, by positivity⟩
  · rw [e]; linarith
  · rw [e]; linarith
  · rw [e]; linarith
  · rw [e]; positivity
  · rw [e]; positivity
  · rw [e]; positivity

/-- C17: when the three smoothness indicators are equal, `weno5` is the
fifth-order linear reconstruction
`(2 um2 - 13 um1 + 47 u0 + 27 up1 - 3 up2) / 60`. -/
theorem weno5_linear_of_beta_eq (um2 um1 u0 up1 up2 : K)
    (h12 : weno5_beta1 um2 um1 u0 = weno5_beta2 um1 u0 up1)
    (h23 : weno5_beta2 um1 u0 up1 = weno5_beta3 u0 up1 up2) :
    weno5 um2 um1 u0 up1 up2 = linear5_spec um2 um1 u0 up1 up2 := by
  have b3 := weno5_beta3_nonneg u0 up1 up2
  have e := weno5_eps_pos (K := K)
  have hd : (weno5_eps + weno5_beta3 u0 up1 up2) ^ 2 ≠ 0 := by positivity
  unfold weno5 weno5_w1 weno5_w2 weno5_w3 linear5_spec
  rw [h12, h23]
  unfold weno5_u1 weno5_u2 weno5_u3
  field_simp
  ring

/-- A concrete instance: the affine data `1, 2, 3, 4, 5`, whose indicators are
all `1`. -/
theorem weno5_linear_of_beta_eq_witness :
    weno5_beta1 (1 : ℚ) 2 3 = weno5_beta2 2 3 4 ∧ weno5_beta2 (2 : ℚ) 3 4 = weno5_beta3 3 4 5
    ∧ weno5 (1 : ℚ) 2 3 4 5 = linear5_spec 1 2 3 4 5 :=
  ⟨by norm_num [weno5_beta1, weno5_beta2], by norm_num [weno5_beta2, weno5_beta3],
    weno5_linear_of_beta_eq 1 2 3 4 5 (by norm_num [weno5_beta1, weno5_beta2])
      (by norm_num [weno5_beta2, weno5_beta3])⟩

/-- The closed form `quadCellAverage` is the average of the quadratic over the
unit cell centred at `k`. -/
theorem quadCellAverage_eq_integral (c0 c1 c2 k : ℝ) :
    (∫ x in (k - 1 / 2)..(k + 1 / 2), quadPoly c0 c1 c2 x) = quadCellAverage c0 c1 c2 k := by
  unfold quadPoly quadCellAverage
  have h0 : IntervalIntegrable (fun _ : ℝ => c0) MeasureTheory.volume (k - 1 / 2) (k + 1 / 2) :=
    continuous_const.intervalIntegrable _ _
  have h1 : IntervalIntegrable (fun x : ℝ => c1 * x) MeasureTheory.volume (k - 1 / 2)
      (k + 1 / 2) :=
    (continuous_const.mul continuous_id).intervalIntegrable _ _
  have h2 : IntervalIntegrable (fun x : ℝ => c2 * x ^ 2) MeasureTheory.volume (k - 1 / 2)
      (k + 1 / 2) :=
    (continuous_const.mul (continuous_pow 2)).intervalIntegrable _ _
  rw [intervalIntegral.integral_add (h0.add h1) h2, intervalIntegral.integral_add h0 h1,
    intervalIntegral.integral_const_mul, intervalIntegral.integral_const_mul,
    intervalIntegral.integral_const, integral_id, integral_pow]
  simp only [smul_eq_mul]
  push_cast
  ring

/-- C19: on the cell averages of a quadratic `p` over the five unit cells
centred at `-2, -1, 0, 1, 2`, each candidate `u1`, `u2`, `u3` equals `p(1/2)`;
hence any normalised combination of them does, and `weno5` returns `p(1/2)`. -/
theorem weno5_candidates_exact_on_cell_averages (c0 c1 c2 : K) :
    weno5_u1 (quadCellAverage c0 c1 c2 (-2)) (quadCellAverage c0 c1 c2 (-1))
        (quadCellAverage c0 c1 c2 0) = quadPoly c0 c1 c2 (1 / 2)
    ∧ weno5_u2 (quadCellAverage c0 c1 c2 (-1)) (quadCellAverage c0 c1 c2 0)
        (quadCellAverage c0 c1 c2 1) = quadPoly c0 c1 c2 (1 / 2)
    ∧ weno5_u3 (quadCellAverage c0 c1 c2 0) (quadCellAverage c0 c1 c2 1)
        (quadCellAverage c0 c1 c2 2) = quadPoly c0 c1 c2 (1 / 2)
    ∧ (∀ w1 w2 w3 : K, w1 + w2 + w3 ≠ 0 →
        (w1 * weno5_u1 (quadCellAverage c0 c1 c2 (-2)) (quadCellAverage c0 c1 c2 (-1))
              (quadCellAverage c0 c1 c2 0)
          + w2 * weno5_u2 (quadCellAverage c0 c1 c2 (-1)) (quadCellAverage c0 c1 c2 0)
              (quadCellAverage c0 c1 c2 1)
          + w3 * weno5_u3 (quadCellAverage c0 c1 c2 0) (quadCellAverage c0 c1 c2 1)
              (quadCellAverage c0 c1 c2 2)) / (w1 + w2 + w3) = quadPoly c0 c1 c2 (1 / 2))
    ∧ weno5 (quadCellAverage c0 c1 c2 (-2)) (quadCellAverage c0 c1 c2 (-1))
        (quadCellAverage c0 c1 c2 0) (quadCellAverage c0 c1 c2 1) (quadCellAverage c0 c1 c2 2)
        = quadPoly c0 c1 c2 (1 / 2) := by
  have h1 : weno5_u1 (quadCellAverage c0 c1 c2 (-2)) (quadCellAverage c0 c1 c2 (-1))
      (quadCellAverage c0 c1 c2 0) = quadPoly c0 c1 c2 (1 / 2) := by
    unfold weno5_u1 quadCellAverage quadPoly; ring
  have h2 : weno5_u2 (quadCellAverage c0 c1 c2 (-1)) (quadCellAverage c0 c1 c2 0)
      (quadCellAverage c0 c1 c2 1) = quadPoly c0 c1 c2 (1 / 2) := by
    unfold weno5_u2 quadCellAverage quadPoly; ring
  have h3 : weno5_u3 (quadCellAverage c0 c1 c2 0) (quadCellAverage c0 c1 c2 1)
      (quadCellAverage c0 c1 c2 2) = quadPoly c0 c1 c2 (1 / 2) := by
    unfold weno5_u3 quadCellAverage quadPoly; ring
  refine ⟨h1, h2, h3, ?_, weno5_of_candidates_eq _ _ _ _ _ _ h1 h2 h3⟩
  intro w1 w2 w3 hw
  rw [h1, h2, h3, div_eq_iff hw]
  ring

/-- A concrete instance: `p(x) = 1 + 2 x + 3 x^2` with weights `1, 2, 3`. -/
theorem weno5_candidates_exact_on_cell_averages_witness :
    (1 : ℚ) + 2 + 3 ≠ 0
    ∧ ((1 : ℚ) * weno5_u1 (quadCellAverage 1 2 3 (-2)) (quadCellAverage 1 2 3 (-1))
              (quadCellAverage 1 2 3 0)
          + 2 * weno5_u2 (quadCellAverage 1 2 3 (-1)) (quadCellAverage 1 2 3 0)
              (quadCellAverage 1 2 3 1)
          + 3 * weno5_u3 (quadCellAverage 1 2 3 0) (quadCellAverage 1 2 3 1)
              (quadCellAverage 1 2 3 2)) / (1 + 2 + 3) = quadPoly 1 2 3 (1 / 2) :=
  ⟨by norm_num,
    (weno5_candidates_exact_on_cell_averages (1 : ℚ) 2 3).2.2.2.1 1 2 3 (by norm_num)⟩


/-! ### The time step -/

theorem PetscMin_le_left (a b : K) : PetscMin a b ≤ a := by
  unfold PetscMin; split_ifs with h
  · exact le_refl a
  · exact not_lt.mp h

theorem PetscMin_le_right (a b : K) : PetscMin a b ≤ b := by
  unfold PetscMin; split_ifs with h
  · exact le_of_lt h
  · exact le_refl b

theorem PetscMin_eq (a b : K) : PetscMin a b = a ∨ PetscMin a b = b := by
  unfold PetscMin; split_ifs
  · exact Or.inl rfl
  · exact Or.inr rfl

theorem PetscAbs_eq_abs (a : K) : PetscAbs a = |a| := by
  unfold PetscAbs; split_ifs with h
  · exact (abs_of_neg h).symm
  · exact (abs_of_nonneg (not_lt.mp h)).symm

/-- A running `PetscMin` over a range: the result is below the start value and
every visited value, and is one of them. -/
theorem forRange_PetscMin (beg : Int) (n : Nat) (g : Int → K) (a : K) :
    forRange beg n (fun x s => PetscMin s (g x)) a ≤ a
    ∧ (∀ x, beg ≤ x → x < beg + n → forRange beg n (fun x s => PetscMin s (g x)) a ≤ g x)
    ∧ (forRange beg n (fun x s => PetscMin s (g x)) a = a
        ∨ ∃ x, beg ≤ x ∧ x < beg + n ∧ forRange beg n (fun x s => PetscMin s (g x)) a = g x) := by
  refine forRange_invariant
    (fun (k : Nat) (s : K) => s ≤ a ∧ (∀ x, beg ≤ x → x < beg + k → s ≤ g x)
      ∧ (s = a ∨ ∃ x, beg ≤ x ∧ x < beg + k ∧ s = g x))
    beg n _ a ?_ ?_
  · refine ⟨le_refl a, ?_, Or.inl rfl⟩
    intro x h1 h2
    push_cast at h2
    omega
  · rintro k s' _ ⟨h1, h2, h3⟩
    refine ⟨le_trans (PetscMin_le_left _ _) h1, ?_, ?_⟩
    · intro x b1 b2
      by_cases hx : x = beg + k
      · subst hx; exact PetscMin_le_right _ _
      · exact le_trans (PetscMin_le_left _ _) (h2 x b1 (by push_cast at b2; omega))
    · rcases PetscMin_eq s' (g (beg + k)) with e | e
      · rw [e]
        rcases h3 with h | ⟨x, c1, c2, c3⟩
        · exact Or.inl h
        · exact Or.inr ⟨x, c1, by push_cast; omega, c3⟩
      · exact Or.inr ⟨beg + k, by omega, by push_cast; omega, e⟩

/-- A running `PetscMin` over the owned cells: the result is below the start
value and the value of every owned cell, and is one of them. -/
theorem forCells_PetscMin (t : Tile) (g : Int → Int → K) (a : K) :
    forCells t (fun j i s => PetscMin s (g j i)) a ≤ a
    ∧ (∀ j i, t.owned j i → forCells t (fun j i s => PetscMin s (g j i)) a ≤ g j i)
    ∧ (forCells t (fun j i s => PetscMin s (g j i)) a = a
        ∨ ∃ j i, t.owned j i ∧ forCells t (fun j i s => PetscMin s (g j i)) a = g j i) := by
  unfold forCells
  refine forRange_invariant
    (fun (k : Nat) (s : K) => s ≤ a
      ∧ (∀ j i, t.jbeg ≤ j → j < t.jbeg + k → t.ibeg ≤ i → i < t.ibeg + t.nlocx → s ≤ g j i)
      ∧ (s = a ∨ ∃ j i, (t.jbeg ≤ j ∧ j < t.jbeg + k ∧ t.ibeg ≤ i ∧ i < t.ibeg + t.nlocx)
          ∧ s = g j i))
    t.jbeg t.nlocy _ a ?_ ?_ |> fun h => ⟨h.1, fun j i ho => h.2.1 j i ho.1 ho.2.1 ho.2.2.1 ho.2.2.2,
      h.2.2.imp id (fun ⟨j, i, ho, e⟩ => ⟨j, i, ho, e⟩)⟩
  · refine ⟨le_refl a, ?_, Or.inl rfl⟩
    intro j i h1 h2
    push_cast at h2
    omega
  · rintro k s' _ ⟨h1, h2, h3⟩
    obtain ⟨r1, r2, r3⟩ := forRange_PetscMin t.ibeg t.nlocx (fun i => g (t.jbeg + k) i) s'
    refine ⟨le_trans r1 h1, ?_, ?_⟩
    · intro j i b1 b2 b3 b4
      by_cases hj : j = t.jbeg + k
      · subst hj; exact r2 i b3 b4
      · exact le_trans r1 (h2 j i b1 (by push_cast at b2; omega) b3 b4)
    · rcases r3 with e | ⟨x, c1, c2, c3⟩
      · rw [e]
        rcases h3 with h | ⟨j, i, ⟨d1, d2, d3, d4⟩, d5⟩
        · exact Or.inl h
        · exact Or.inr ⟨j, i, ⟨d1, by push_cast; omega, d3, d4⟩, d5⟩
      · exact Or.inr ⟨t.jbeg + k, x, ⟨by omega, by push_cast; omega, c1, c2⟩, c3⟩

/-- The minimum reduction: the result is below the local value and every
contributed value, and is one of them. -/
theorem MPI_Allreduce_MIN_spec (loc : K) (others : List K) :
    MPI_Allreduce_MIN loc others ≤ loc
    ∧ (∀ o ∈ others, MPI_Allreduce_MIN loc others ≤ o)
    ∧ (MPI_Allreduce_MIN loc others = loc ∨ MPI_Allreduce_MIN loc others ∈ others) := by
  unfold MPI_Allreduce_MIN
  induction others generalizing loc with
  | nil => simp
  | cons o os ih =>
    obtain ⟨h1, h2, h3⟩ := ih (PetscMin loc o)
    simp only [List.foldl_cons, List.mem_cons]
    refine ⟨le_trans h1 (PetscMin_le_left _ _), ?_, ?_⟩
    · rintro x (rfl | hx)
      · exact le_trans h1 (PetscMin_le_right _ _)
      · exact h2 x hx
    · rcases h3 with e | e
      · rcases PetscMin_eq loc o with e' | e'
        · exact Or.inl (e.trans e')
        · exact Or.inr (Or.inl (e.trans e'))
      · exact Or.inr (Or.inr e)

/-- The value `m` that `Monitor` multiplies by `cfl` is the minimum of `1e20`,
of `dt_local` over the owned cells and of the values of the other processes. -/
theorem monitor_min_spec (sqrt : K → K) (gas_gamma dx dy : K) (t : Tile) (others : List K)
    (u : Grid K) :
    MPI_Allreduce_MIN (monitorLocalMin sqrt gas_gamma dx dy t u) others ≤ 10 ^ 20
    ∧ (∀ j i, t.owned j i →
        MPI_Allreduce_MIN (monitorLocalMin sqrt gas_gamma dx dy t u) others
          ≤ dt_local sqrt gas_gamma dx dy (u j i))
    ∧ (∀ o ∈ others, MPI_Allreduce_MIN (monitorLocalMin sqrt gas_gamma dx dy t u) others ≤ o)
    ∧ (MPI_Allreduce_MIN (monitorLocalMin sqrt gas_gamma dx dy t u) others = 10 ^ 20
        ∨ (∃ j i, t.owned j i ∧
            MPI_Allreduce_MIN (monitorLocalMin sqrt gas_gamma dx dy t u) others
              = dt_local sqrt gas_gamma dx dy (u j i))
        ∨ MPI_Allreduce_MIN (monitorLocalMin sqrt gas_gamma dx dy t u) others ∈ others) := by
  obtain ⟨a1, a2, a3⟩ := MPI_Allreduce_MIN_spec (monitorLocalMin sqrt gas_gamma dx dy t u) others
  obtain ⟨b1, b2, b3⟩ := forCells_PetscMin t (fun j i => dt_local sqrt gas_gamma dx dy (u j i))
    ((10 : K) ^ 20)
  refine ⟨le_trans a1 b1, fun j i h => le_trans a1 (b2 j i h), a2, ?_⟩
  rcases a3 with e | e
  · rcases b3 with f | ⟨j, i, h, f⟩
    · exact Or.inl (e.trans f)
    · exact Or.inr (Or.inl ⟨j, i, h, e.trans f⟩)
  · exact Or.inr (Or.inr e)

/-- C11: CFL step control. With `cfl > 0` and `time` not within `1e-13` of `Tf`,
`Monitor` either returns at once because `step < 0`, or sets the step
`d = cfl * m`, `m` being the minimum of `1e20`, of `dt_local` over the owned
cells and of the other processes' minima, unless `time + d > Tf`, in which case
it sets exactly `Tf - time`; so `time + step ≤ Tf`, with equality when the
unclamped step would overshoot. -/
theorem Monitor_cfl_step (sqrt : K → K) (gas_gamma dx dy cfl Tf : K) (t : Tile)
    (others : List K) (step : Int) (time : K) (u : Grid K)
    (hcfl : 0 < cfl) (ht : ¬ (|time - Tf| < 1 / 10 ^ 13)) :
    (MPI_Allreduce_MIN (monitorLocalMin sqrt gas_gamma dx dy t u) others ≤ 10 ^ 20
      ∧ (∀ j i, t.owned j i →
          MPI_Allreduce_MIN (monitorLocalMin sqrt gas_gamma dx dy t u) others
            ≤ dt_local sqrt gas_gamma dx dy (u j i))
      ∧ (∀ o ∈ others, MPI_Allreduce_MIN (monitorLocalMin sqrt gas_gamma dx dy t u) others ≤ o)
      ∧ (MPI_Allreduce_MIN (monitorLocalMin sqrt gas_gamma dx dy t u) others = 10 ^ 20
          ∨ (∃ j i, t.owned j i ∧
              MPI_Allreduce_MIN (monitorLocalMin sqrt gas_gamma dx dy t u) others
                = dt_local sqrt gas_gamma dx dy (u j i))
          ∨ MPI_Allreduce_MIN (monitorLocalMin sqrt gas_gamma dx dy t u) others ∈ others))
    ∧ ((step < 0 ∧ Monitor sqrt gas_gamma dx dy cfl Tf t others step time u = none)
      ∨ (0 ≤ step ∧ ∃ s, Monitor sqrt gas_gamma dx dy cfl Tf t others step time u = some s
          ∧ (Tf < time + cfl * MPI_Allreduce_MIN (monitorLocalMin sqrt gas_gamma dx dy t u) others
              → s = Tf - time)
          ∧ (¬ Tf < time + cfl * MPI_Allreduce_MIN (monitorLocalMin sqrt gas_gamma dx dy t u) others
              → s = cfl * MPI_Allreduce_MIN (monitorLocalMin sqrt gas_gamma dx dy t u) others)
          ∧ time + s ≤ Tf
          ∧ (Tf < time + cfl * MPI_Allreduce_MIN (monitorLocalMin sqrt gas_gamma dx dy t u) others
              → time + s = Tf))) := by
  refine ⟨monitor_min_spec sqrt gas_gamma dx dy t others u, ?_⟩
  by_cases hs : step < 0
  · left
    exact ⟨hs, by unfold Monitor; rw [if_pos hs]⟩
  · right
    have ht' : ¬ (PetscAbs (time - Tf) < 1 / 10 ^ 13) := by rw [PetscAbs_eq_abs]; exact ht
    have hc : cfl > 0 := hcfl
    have e : MPI_Allreduce_MIN (monitorLocalMin sqrt gas_gamma dx dy t u) others * cfl
        = cfl * MPI_Allreduce_MIN (monitorLocalMin sqrt gas_gamma dx dy t u) others :=
      mul_comm _ _
    refine ⟨not_lt.mp hs, ?_⟩
    unfold Monitor
    rw [if_neg hs, if_neg ht', if_pos hc]
    simp only [e, gt_iff_lt]
    by_cases ho : Tf < time + cfl * MPI_Allreduce_MIN (monitorLocalMin sqrt gas_gamma dx dy t u) others
    · rw [if_pos ho]
      exact ⟨_, rfl, fun _ => rfl, fun h => absurd ho h, by linarith, fun _ => by ring⟩
    · rw [if_neg ho]
      exact ⟨_, rfl, fun h => absurd h ho, fun _ => rfl, not_lt.mp ho, fun h => absurd h ho⟩


/-- A concrete instance: one cell with `dt_local = 1/2`, `cfl = 1/2`, `time = 0`,
`Tf = 10`, `step = 0`; the step set is `1/4`. -/
theorem Monitor_cfl_step_witness :
    (0 : ℝ) < 1 / 2 ∧ ¬ (|(0 : ℝ) - 10| < 1 / 10 ^ 13)
    ∧ Monitor Real.sqrt (2 : ℝ) 1 1 (1 / 2) 10 tile1x1 [] 0 0 (fun _ _ => ![1, 0, 0, 1 / 2])
        = some (1 / 4) := by
  have h1 : (0 : ℝ) < 1 / 2 := by norm_num
  have h2 : ¬ (|(0 : ℝ) - 10| < 1 / 10 ^ 13) := by
    rw [zero_sub, abs_neg, abs_of_pos (by norm_num : (0 : ℝ) < 10)]
    norm_num
  have hm : MPI_Allreduce_MIN (monitorLocalMin Real.sqrt (2 : ℝ) 1 1 tile1x1
      (fun _ _ => ![1, 0, 0, 1 / 2])) [] = 1 / 2 := by
    have e : MPI_Allreduce_MIN (monitorLocalMin Real.sqrt (2 : ℝ) 1 1 tile1x1
        (fun _ _ => ![1, 0, 0, 1 / 2])) []
        = PetscMin (10 ^ 20) (dt_local Real.sqrt (2 : ℝ) 1 1 ![1, 0, 0, 1 / 2]) := rfl
    have d : dt_local Real.sqrt (2 : ℝ) 1 1 ![1, 0, 0, 1 / 2] = 1 / 2 := by
      simp [dt_local, con2prim]
      norm_num
    rw [e, d]
    unfold PetscMin
    norm_num
  refine ⟨h1, h2, ?_⟩
  rcases (Monitor_cfl_step Real.sqrt (2 : ℝ) 1 1 (1 / 2) 10 tile1x1 [] 0 0
      (fun _ _ => ![1, 0, 0, 1 / 2]) h1 h2).2 with h | ⟨_, s, hs, _, hu, _, _⟩
  · exact absurd h.1 (by decide)
  · rw [hs, hu (by rw [hm]; norm_num), hm]
    norm_num

theorem forCells_prod {σ τ : Type} (t : Tile) (g : Int → Int → σ → σ) (h : Int → Int → τ → τ)
    (s : σ × τ) :
    forCells t (fun j i f => (g j i f.1, h j i f.2)) s
      = (forCells t g s.1, forCells t h s.2) := by
  unfold forCells
  have inner : (fun (j : Int) (f : σ × τ) =>
        forRange t.ibeg t.nlocx (fun i f => (g j i f.1, h j i f.2)) f)
      = (fun j f => (forRange t.ibeg t.nlocx (fun i s => g j i s) f.1,
          forRange t.ibeg t.nlocx (fun i s => h j i s) f.2)) := by
    funext j f
    exact forRange_prod t.ibeg t.nlocx (fun i s => g j i s) (fun i s => h j i s) f
  rw [inner]
  exact forRange_prod t.jbeg t.nlocy _ _ s

/-- What `main` multiplies by `cfl`: the minimum of the start value `1e-20`, of
`dt_local` over the initial states of the owned cells and of the other
processes' values; in particular it never exceeds `1e-20`. -/
theorem main_min_spec (sqrt : K → K) (gas_gamma xmin ymin dx dy : K)
    (initcond : K → K → Fin 4 → K) (t : Tile) (u : Grid K) (others : List K) :
    MPI_Allreduce_MIN (mainInitLoop sqrt gas_gamma xmin ymin dx dy initcond t u).2 others
        ≤ 1 / 10 ^ 20
    ∧ (∀ j i, t.owned j i →
        MPI_Allreduce_MIN (mainInitLoop sqrt gas_gamma xmin ymin dx dy initcond t u).2 others
          ≤ dt_local sqrt gas_gamma dx dy (initialCell gas_gamma xmin ymin dx dy initcond j i))
    ∧ (∀ o ∈ others,
        MPI_Allreduce_MIN (mainInitLoop sqrt gas_gamma xmin ymin dx dy initcond t u).2 others ≤ o)
    ∧ (MPI_Allreduce_MIN (mainInitLoop sqrt gas_gamma xmin ymin dx dy initcond t u).2 others
          = 1 / 10 ^ 20
        ∨ (∃ j i, t.owned j i ∧
            MPI_Allreduce_MIN (mainInitLoop sqrt gas_gamma xmin ymin dx dy initcond t u).2 others
              = dt_local sqrt gas_gamma dx dy
                  (initialCell gas_gamma xmin ymin dx dy initcond j i))
        ∨ MPI_Allreduce_MIN (mainInitLoop sqrt gas_gamma xmin ymin dx dy initcond t u).2 others
            ∈ others) := by
  have e : (mainInitLoop sqrt gas_gamma xmin ymin dx dy initcond t u).2
      = forCells t (fun j i s => PetscMin s (dt_local sqrt gas_gamma dx dy
          (initialCell gas_gamma xmin ymin dx dy initcond j i))) (1 / 10 ^ 20) := by
    unfold mainInitLoop
    rw [forCells_prod t
      (fun j i (a : Grid K) => setCell a j i (initialCell gas_gamma xmin ymin dx dy initcond j i))
      (fun j i (s : K) => PetscMin s (dt_local sqrt gas_gamma dx dy
          (initialCell gas_gamma xmin ymin dx dy initcond j i))) (u, 1 / 10 ^ 20)]
  rw [e]
  obtain ⟨a1, a2, a3⟩ := MPI_Allreduce_MIN_spec
    (forCells t (fun j i s => PetscMin s (dt_local sqrt gas_gamma dx dy
      (initialCell gas_gamma xmin ymin dx dy initcond j i))) (1 / 10 ^ 20)) others
  obtain ⟨b1, b2, b3⟩ := forCells_PetscMin t
    (fun j i => dt_local sqrt gas_gamma dx dy (initialCell gas_gamma xmin ymin dx dy initcond j i))
    ((1 : K) / 10 ^ 20)
  refine ⟨le_trans a1 b1, fun j i h => le_trans a1 (b2 j i h), a2, ?_⟩
  rcases a3 with f | f
  · rcases b3 with g | ⟨j, i, h, g⟩
    · exact Or.inl (f.trans g)
    · exact Or.inr (Or.inl ⟨j, i, h, f.trans g⟩)
  · exact Or.inr (Or.inr f)

/-- C12 (failing input): one process, a 1 x 1 grid with `dx = dy = 1`,
`gas_gamma = 2`, initial primitive state `(1, 0, 0, 1/2)` and `cfl = 1/2`. The
only cell has `dt_local = 1/2`, so the claim gives the initial step `1/4`; `main`
chooses `(1/2) * 1e-20`, because `dtlocal` starts at `1.0e-20` (line 174). -/
theorem mainInitialStep_starts_from_tiny_value :
    dt_local Real.sqrt (2 : ℝ) 1 1
        (initialCell 2 0 0 1 1 (fun _ _ => ![1, 0, 0, 1 / 2]) 0 0) = 1 / 2
    ∧ mainInitialStep Real.sqrt (2 : ℝ) 0 0 1 1 (fun _ _ => ![1, 0, 0, 1 / 2]) tile1x1
        (fun _ _ _ => 0) [] (1 / 2) (-1) = some ((1 / 2) * (1 / 10 ^ 20))
    ∧ (1 / 2 : ℝ) * (1 / 10 ^ 20) ≠ (1 / 2) * (1 / 2) := by
  have c : initialCell (2 : ℝ) 0 0 1 1 (fun _ _ => ![1, 0, 0, 1 / 2]) 0 0 = ![1, 0, 0, 1 / 2] := by
    unfold initialCell prim2con
    norm_num
  have d : dt_local Real.sqrt (2 : ℝ) 1 1 ![1, 0, 0, 1 / 2] = 1 / 2 := by
    simp [dt_local, con2prim]
    norm_num
  refine ⟨by rw [c, d], ?_, by norm_num⟩
  have e : mainInitialStep Real.sqrt (2 : ℝ) 0 0 1 1 (fun _ _ => ![1, 0, 0, 1 / 2]) tile1x1
      (fun _ _ _ => 0) [] (1 / 2) (-1)
      = mainStepPolicy (1 / 2) (-1) (PetscMin (1 / 10 ^ 20) (dt_local Real.sqrt (2 : ℝ) 1 1
          (initialCell 2 0 0 1 1 (fun _ _ => ![1, 0, 0, 1 / 2]) 0 0))) := rfl
  rw [e, c, d]
  unfold mainStepPolicy PetscMin
  norm_num

/-- C13 (counterexample): with both options supplied, `cfl = 1/2` and `dt = 1/10`,
`main` does not terminate: it goes on to time stepping with the step
`cfl * dtglobal`. -/
theorem mainStepPolicy_both_supplied_proceeds :
    (0 : ℚ) < 1 / 2 ∧ (0 : ℚ) < 1 / 10
    ∧ mainStepPolicy (1 / 2 : ℚ) (1 / 10) (1 / 100) = some ((1 / 2) * (1 / 100))
    ∧ mainStepPolicy (1 / 2 : ℚ) (1 / 10) (1 / 100) ≠ none := by
  have h : mainStepPolicy (1 / 2 : ℚ) (1 / 10) (1 / 100) = some ((1 / 2) * (1 / 100)) := by
    unfold mainStepPolicy
    rw [if_pos (by norm_num)]
  exact ⟨by norm_num, by norm_num, h, by rw [h]; exact Option.some_ne_none _⟩

/-- C13 (amended): `main` goes on to time stepping if and only if at least one
of `cfl` and `dt` is supplied (positive). When `cfl` is supplied the step is
`cfl * dtglobal`, whether or not `dt` is supplied too; when only `dt` is supplied
the step is `dt`; when neither is, in particular with both at the default `-1`,
`main` returns before any stepping. -/
theorem mainStepPolicy_spec (cfl dt dtglobal : K) :
    ((mainStepPolicy cfl dt dtglobal).isSome = true ↔ (0 < cfl ∨ 0 < dt))
    ∧ (0 < cfl → mainStepPolicy cfl dt dtglobal = some (cfl * dtglobal))
    ∧ (¬ 0 < cfl → 0 < dt → mainStepPolicy cfl dt dtglobal = some dt)
    ∧ (¬ 0 < cfl → ¬ 0 < dt → mainStepPolicy cfl dt dtglobal = none)
    ∧ mainStepPolicy (-1) (-1) dtglobal = none
    ∧ (∀ (sqrt : K → K) (gas_gamma xmin ymin dx dy : K) (initcond : K → K → Fin 4 → K)
        (t : Tile) (u : Grid K) (others : List K),
        (mainInitialStep sqrt gas_gamma xmin ymin dx dy initcond t u others cfl dt).isSome = true
          ↔ (0 < cfl ∨ 0 < dt)) := by
  have key : (mainStepPolicy cfl dt dtglobal).isSome = true ↔ (0 < cfl ∨ 0 < dt) := by
    unfold mainStepPolicy
    by_cases h1 : 0 < cfl
    · simp [h1]
    · by_cases h2 : 0 < dt
      · simp [h1, h2]
      · simp [h1, h2]
  have gen : ∀ g : K, (mainStepPolicy cfl dt g).isSome = true ↔ (0 < cfl ∨ 0 < dt) := by
    intro g
    unfold mainStepPolicy
    by_cases h1 : 0 < cfl
    · simp [h1]
    · by_cases h2 : 0 < dt
      · simp [h1, h2]
      · simp [h1, h2]
  refine ⟨key, ?_, ?_, ?_, ?_, ?_⟩
  · intro h1
    unfold mainStepPolicy
    rw [if_pos h1]
  · intro h1 h2
    unfold mainStepPolicy
    rw [if_neg h1, if_pos h2]
  · intro h1 h2
    unfold mainStepPolicy
    rw [if_neg h1, if_neg h2]
  · unfold mainStepPolicy
    rw [if_neg (by norm_num), if_neg (by norm_num)]
  · intro sqrt gas_gamma xmin ymin dx dy initcond t u others
    exact gen _

/-- A concrete instance: only `dt = 1/10` supplied, `cfl` at its default `-1`. -/
theorem mainStepPolicy_spec_witness :
    ¬ (0 : ℚ) < -1 ∧ (0 : ℚ) < 1 / 10
    ∧ mainStepPolicy (-1 : ℚ) (1 / 10) (1 / 100) = some (1 / 10) :=
  ⟨by norm_num, by norm_num,
    (mainStepPolicy_spec (-1 : ℚ) (1 / 10) (1 / 100)).2.2.1 (by norm_num) (by norm_num)⟩


/-! ### Per-cell residual and stencil coverage -/

/-- C18: per-cell residual. For `dx, dy ≠ 0` and an owned cell `(j, i)`, the
flux accumulation returns
`-[(Fx(i+1,j) - Fx(i,j))/dx + (Fy(i,j+1) - Fy(i,j))/dy]`, `Fx` and `Fy` being the
flux values used at the x-faces and y-faces; `RHSFunction`, unless the
boundary step raises, returns this value with the flux it uses at every face,
the content of `flux`. -/
theorem residual_per_cell (dx dy : K) (hdx : dx ≠ 0) (hdy : dy ≠ 0) (t : Tile) (j i : Int)
    (d : Fin 4) (h : t.owned j i) :
    (∀ (fx fy : Grid K × Grid K) (fluxX fluxY : Int → Int → Fin 4 → K) (R : Grid K),
        assembleResidual dx dy t fx fy fluxX fluxY R j i d
          = -((fluxX j (i + 1) d - fluxX j i d) / dx + (fluxY (j + 1) i d - fluxY j i d) / dy))
    ∧ (∀ (bc : BoundaryConfig) (sqrt : K → K) (gas_gamma : K) (sc : Scratch K)
        (otherLamx otherLamy : List K) (R u : Grid K), ¬ farfieldRaised bc t →
        ∃ res, RHSFunction bc sqrt gas_gamma dx dy t sc otherLamx otherLamy R u = .ok res
          ∧ res j i d
            = -((sc.flux0 d - sc.flux0 d) / dx + (sc.flux0 d - sc.flux0 d) / dy)) := by
  have gen : ∀ (fx fy : Grid K × Grid K) (fluxX fluxY : Int → Int → Fin 4 → K) (R : Grid K),
      assembleResidual dx dy t fx fy fluxX fluxY R j i d
        = -((fluxX j (i + 1) d - fluxX j i d) / dx
            + (fluxY (j + 1) i d - fluxY j i d) / dy) := by
    intro fx fy fluxX fluxY R
    rw [assembleResidual_apply dx dy t fx fy fluxX fluxY R j i d h]
    field_simp
    ring
  refine ⟨gen, ?_⟩
  intro bc sqrt gas_gamma sc otherLamx otherLamy R u hf
  unfold RHSFunction
  rw [boundaryStep_eq, if_neg hf]
  exact ⟨_, rfl, gen _ _ (fun _ _ => sc.flux0) (fun _ _ => sc.flux0) R⟩

/-- A concrete instance: the centre cell of the 3 x 3 tile, `dx = 1/2`,
`dy = 1/3`, x-face flux `i^2`, y-face flux `j`. -/
theorem residual_per_cell_witness :
    (1 / 2 : ℚ) ≠ 0 ∧ (1 / 3 : ℚ) ≠ 0 ∧ tile3x3.owned 1 1
    ∧ assembleResidual (1 / 2 : ℚ) (1 / 3) tile3x3
        (fun _ _ _ => 0, fun _ _ _ => 0) (fun _ _ _ => 0, fun _ _ _ => 0)
        (fun _ i _ => ((i ^ 2 : Int) : ℚ)) (fun j _ _ => ((j : Int) : ℚ)) (fun _ _ _ => 7) 1 1 0
      = -((((((1 + 1) ^ 2 : Int) : ℚ)) - (((1 ^ 2 : Int) : ℚ))) / (1 / 2)
          + ((((1 + 1 : Int) : ℚ)) - (((1 : Int) : ℚ))) / (1 / 3)) :=
  ⟨by norm_num, by norm_num, by unfold Tile.owned; decide,
    (residual_per_cell (1 / 2 : ℚ) (1 / 3) (by norm_num) (by norm_num) tile3x3 1 1 0
      (by unfold Tile.owned; decide)).1 _ _ _ _ _⟩

/-- C20: stencil coverage. For an x-face `i ∈ [ibeg, ibeg+nlocx]` on an owned row
`j`, every entry `i-3, …, i+2` that the reconstruction reads lies inside the
halo-extended tile and holds the split flux that the x-split loop of this
evaluation computed from `u[j][i+k]`, whatever the arrays contained before;
hence `UL` and `UR` are functions of the fresh split fluxes only. The same
holds for the y-faces `j ∈ [jbeg, jbeg+nlocy]` on owned columns. -/
theorem stencil_coverage (gas_gamma lambdax lambday : K) (t : Tile) (u : Grid K)
    (fx0 fy0 : Grid K × Grid K) :
    (∀ j i : Int, t.jbeg ≤ j → j < t.jbeg + t.nlocy → t.ibeg ≤ i → i ≤ t.ibeg + t.nlocx →
        (∀ k : Int, -3 ≤ k → k ≤ 2 →
          t.inHalo j (i + k)
          ∧ (fillSplitX gas_gamma t u lambdax fx0).1 j (i + k)
              = (split_fluxes gas_gamma (u j (i + k)) 1 0 lambdax).1
          ∧ (fillSplitX gas_gamma t u lambdax fx0).2 j (i + k)
              = (split_fluxes gas_gamma (u j (i + k)) 1 0 lambdax).2)
        ∧ UL_x (fillSplitX gas_gamma t u lambdax fx0).1 j i
            = UL_x (fun j i => (split_fluxes gas_gamma (u j i) 1 0 lambdax).1) j i
        ∧ UR_x (fillSplitX gas_gamma t u lambdax fx0).2 j i
            = UR_x (fun j i => (split_fluxes gas_gamma (u j i) 1 0 lambdax).2) j i)
    ∧ (∀ j i : Int, t.ibeg ≤ i → i < t.ibeg + t.nlocx → t.jbeg ≤ j → j ≤ t.jbeg + t.nlocy →
        (∀ k : Int, -3 ≤ k → k ≤ 2 →
          t.inHalo (j + k) i
          ∧ (fillSplitY gas_gamma t u lambday fy0).1 (j + k) i
              = (split_fluxes gas_gamma (u (j + k) i) 0 1 lambday).1
          ∧ (fillSplitY gas_gamma t u lambday fy0).2 (j + k) i
              = (split_fluxes gas_gamma (u (j + k) i) 0 1 lambday).2)
        ∧ UL_y (fillSplitY gas_gamma t u lambday fy0).1 j i
            = UL_y (fun j i => (split_fluxes gas_gamma (u j i) 0 1 lambday).1) j i
        ∧ UR_y (fillSplitY gas_gamma t u lambday fy0).2 j i
            = UR_y (fun j i => (split_fluxes gas_gamma (u j i) 0 1 lambday).2) j i) := by
  have hsw : ((sw : Nat) : Int) = 3 := rfl
  constructor
  · intro j i hj1 hj2 hi1 hi2
    have hk : ∀ k : Int, -3 ≤ k → k ≤ 2 →
        (fillSplitX gas_gamma t u lambdax fx0).1 j (i + k)
            = (split_fluxes gas_gamma (u j (i + k)) 1 0 lambdax).1
        ∧ (fillSplitX gas_gamma t u lambdax fx0).2 j (i + k)
            = (split_fluxes gas_gamma (u j (i + k)) 1 0 lambdax).2 := by
      intro k k1 k2
      exact fillSplitX_apply gas_gamma t u lambdax fx0 j (i + k) ⟨hj1, hj2⟩
        ⟨by omega, by omega⟩
    have h0 := hk 0 (by norm_num) (by norm_num)
    rw [add_zero] at h0
    refine ⟨?_, ?_, ?_⟩
    · intro k k1 k2
      refine ⟨?_, hk k k1 k2⟩
      unfold Tile.inHalo
      rw [hsw]
      omega
    · funext d
      unfold UL_x
      simp only [sub_eq_add_neg]
      rw [(hk (-3) (by norm_num) (by norm_num)).1, (hk (-2) (by norm_num) (by norm_num)).1,
        (hk (-1) (by norm_num) (by norm_num)).1, h0.1, (hk 1 (by norm_num) (by norm_num)).1]
    · funext d
      unfold UR_x
      simp only [sub_eq_add_neg]
      rw [(hk 2 (by norm_num) (by norm_num)).2, (hk 1 (by norm_num) (by norm_num)).2, h0.2,
        (hk (-1) (by norm_num) (by norm_num)).2, (hk (-2) (by norm_num) (by norm_num)).2]
  · intro j i hi1 hi2 hj1 hj2
    have hk : ∀ k : Int, -3 ≤ k → k ≤ 2 →
        (fillSplitY gas_gamma t u lambday fy0).1 (j + k) i
            = (split_fluxes gas_gamma (u (j + k) i) 0 1 lambday).1
        ∧ (fillSplitY gas_gamma t u lambday fy0).2 (j + k) i
            = (split_fluxes gas_gamma (u (j + k) i) 0 1 lambday).2 := by
      intro k k1 k2
      exact fillSplitY_apply gas_gamma t u lambday fy0 (j + k) i ⟨by omega, by omega⟩
        ⟨hi1, hi2⟩
    have h0 := hk 0 (by norm_num) (by norm_num)
    rw [add_zero] at h0
    refine ⟨?_, ?_, ?_⟩
    · intro k k1 k2
      refine ⟨?_, hk k k1 k2⟩
      unfold Tile.inHalo
      rw [hsw]
      omega
    · funext d
      unfold UL_y
      simp only [sub_eq_add_neg]
      rw [(hk (-3) (by norm_num) (by norm_num)).1, (hk (-2) (by norm_num) (by norm_num)).1,
        (hk (-1) (by norm_num) (by norm_num)).1, h0.1, (hk 1 (by norm_num) (by norm_num)).1]
    · funext d
      unfold UR_y
      simp only [sub_eq_add_neg]
      rw [(hk 2 (by norm_num) (by norm_num)).2, (hk 1 (by norm_num) (by norm_num)).2, h0.2,
        (hk (-1) (by norm_num) (by norm_num)).2, (hk (-2) (by norm_num) (by norm_num)).2]


/-- A concrete instance: the last x-face `i = 3` of row `0` of the 3 x 3 tile and
the entry `i + 2 = 5` of its stencil. -/
theorem stencil_coverage_witness :
    (tile3x3.jbeg ≤ 0 ∧ (0 : Int) < tile3x3.jbeg + tile3x3.nlocy
      ∧ tile3x3.ibeg ≤ 3 ∧ (3 : Int) ≤ tile3x3.ibeg + tile3x3.nlocx
      ∧ (-3 : Int) ≤ 2 ∧ (2 : Int) ≤ 2)
    ∧ tile3x3.inHalo 0 (3 + 2)
    ∧ (fillSplitX (7 / 5 : ℚ) tile3x3 sampleState 2 (fun _ _ _ => 0, fun _ _ _ => 0)).1 0 (3 + 2)
        = (split_fluxes (7 / 5 : ℚ) (sampleState 0 (3 + 2)) 1 0 2).1 :=
  ⟨by decide,
    (((stencil_coverage (7 / 5 : ℚ) 2 2 tile3x3 sampleState (fun _ _ _ => 0, fun _ _ _ => 0)
      (fun _ _ _ => 0, fun _ _ _ => 0)).1 0 3 (by decide) (by decide) (by decide)
      (by decide)).1 2 (by decide) (by decide)).1,
    (((stencil_coverage (7 / 5 : ℚ) 2 2 tile3x3 sampleState (fun _ _ _ => 0, fun _ _ _ => 0)
      (fun _ _ _ => 0, fun _ _ _ => 0)).1 0 3 (by decide) (by decide) (by decide)
      (by decide)).1 2 (by decide) (by decide)).2.1⟩


/-! ### Convexity of the reconstruction and wall mirroring -/

/-- A combination with positive weights lies between the least and the
greatest of the three combined values. -/
theorem weighted_mean_bounds (w1 w2 w3 a b c : K) (h1 : 0 < w1) (h2 : 0 < w2) (h3 : 0 < w3) :
    min (min a b) c ≤ (w1 * a + w2 * b + w3 * c) / (w1 + w2 + w3)
    ∧ (w1 * a + w2 * b + w3 * c) / (w1 + w2 + w3) ≤ max (max a b) c := by
  have hs : 0 < w1 + w2 + w3 := by positivity
  have la : min (min a b) c ≤ a := le_trans (min_le_left _ _) (min_le_left _ _)
  have lb : min (min a b) c ≤ b := le_trans (min_le_left _ _) (min_le_right _ _)
  have lc : min (min a b) c ≤ c := min_le_right _ _
  have ua : a ≤ max (max a b) c := le_trans (le_max_left _ _) (le_max_left _ _)
  have ub : b ≤ max (max a b) c := le_trans (le_max_right _ _) (le_max_left _ _)
  have uc : c ≤ max (max a b) c := le_max_right _ _
  constructor
  · rw [le_div_iff₀ hs]
    nlinarith [mul_le_mul_of_nonneg_left la h1.le, mul_le_mul_of_nonneg_left lb h2.le,
      mul_le_mul_of_nonneg_left lc h3.le]
  · rw [div_le_iff₀ hs]
    nlinarith [mul_le_mul_of_nonneg_left ua h1.le, mul_le_mul_of_nonneg_left ub h2.le,
      mul_le_mul_of_nonneg_left uc h3.le]

/-- C21: `weno5` is a convex combination of its candidates. The normalised
weights are positive and sum to `1`, `weno5` is the combination of `u1`, `u2`,
`u3` with these weights, and its value lies between the minimum and the maximum
of the three candidates. -/
theorem weno5_convex_combination (um2 um1 u0 up1 up2 : K) :
    (0 < weno5_w1 um2 um1 u0
          / (weno5_w1 um2 um1 u0 + weno5_w2 um1 u0 up1 + weno5_w3 u0 up1 up2)
      ∧ 0 < weno5_w2 um1 u0 up1
          / (weno5_w1 um2 um1 u0 + weno5_w2 um1 u0 up1 + weno5_w3 u0 up1 up2)
      ∧ 0 < weno5_w3 u0 up1 up2
          / (weno5_w1 um2 um1 u0 + weno5_w2 um1 u0 up1 + weno5_w3 u0 up1 up2))
    ∧ weno5_w1 um2 um1 u0 / (weno5_w1 um2 um1 u0 + weno5_w2 um1 u0 up1 + weno5_w3 u0 up1 up2)
        + weno5_w2 um1 u0 up1
          / (weno5_w1 um2 um1 u0 + weno5_w2 um1 u0 up1 + weno5_w3 u0 up1 up2)
        + weno5_w3 u0 up1 up2
          / (weno5_w1 um2 um1 u0 + weno5_w2 um1 u0 up1 + weno5_w3 u0 up1 up2) = 1
    ∧ weno5 um2 um1 u0 up1 up2
        = weno5_w1 um2 um1 u0
            / (weno5_w1 um2 um1 u0 + weno5_w2 um1 u0 up1 + weno5_w3 u0 up1 up2)
            * weno5_u1 um2 um1 u0
          + weno5_w2 um1 u0 up1
            / (weno5_w1 um2 um1 u0 + weno5_w2 um1 u0 up1 + weno5_w3 u0 up1 up2)
            * weno5_u2 um1 u0 up1
          + weno5_w3 u0 up1 up2
            / (weno5_w1 um2 um1 u0 + weno5_w2 um1 u0 up1 + weno5_w3 u0 up1 up2)
            * weno5_u3 u0 up1 up2
    ∧ min (min (weno5_u1 um2 um1 u0) (weno5_u2 um1 u0 up1)) (weno5_u3 u0 up1 up2)
        ≤ weno5 um2 um1 u0 up1 up2
    ∧ weno5 um2 um1 u0 up1 up2
        ≤ max (max (weno5_u1 um2 um1 u0) (weno5_u2 um1 u0 up1)) (weno5_u3 u0 up1 up2) := by
  have p1 := weno5_w1_pos um2 um1 u0
  have p2 := weno5_w2_pos um1 u0 up1
  have p3 := weno5_w3_pos u0 up1 up2
  have hs : 0 < weno5_w1 um2 um1 u0 + weno5_w2 um1 u0 up1 + weno5_w3 u0 up1 up2 := by
    positivity
  have hb := weighted_mean_bounds (weno5_w1 um2 um1 u0) (weno5_w2 um1 u0 up1)
    (weno5_w3 u0 up1 up2) (weno5_u1 um2 um1 u0) (weno5_u2 um1 u0 up1) (weno5_u3 u0 up1 up2)
    p1 p2 p3
  refine ⟨⟨div_pos p1 hs, div_pos p2 hs, div_pos p3 hs⟩, ?_, ?_, hb.1, hb.2⟩
  · rw [← add_div, ← add_div, div_self (ne_of_gt hs)]
  · unfold weno5
    field_simp

/-- C22: wall mirroring preserves pressure and wave speeds. For every conserved
state `U`, the state with negated x-momentum (left/right wall ghost) and the
state with negated y-momentum (bottom/top wall ghost) have the `con2prim`
pressure, the `compute_lambda` pair and the `dt_local` of `U`. -/
theorem wallMirror_preserves_speeds (sqrt : K → K) (gas_gamma dx dy : K) (U : Fin 4 → K) :
    (con2prim gas_gamma (wallMirrorX U) 3 = con2prim gas_gamma U 3
      ∧ compute_lambda sqrt gas_gamma (wallMirrorX U) = compute_lambda sqrt gas_gamma U
      ∧ dt_local sqrt gas_gamma dx dy (wallMirrorX U) = dt_local sqrt gas_gamma dx dy U)
    ∧ (con2prim gas_gamma (wallMirrorY U) 3 = con2prim gas_gamma U 3
      ∧ compute_lambda sqrt gas_gamma (wallMirrorY U) = compute_lambda sqrt gas_gamma U
      ∧ dt_local sqrt gas_gamma dx dy (wallMirrorY U) = dt_local sqrt gas_gamma dx dy U) := by
  have sqx : (-U 1 / U 0) ^ 2 = (U 1 / U 0) ^ 2 := by rw [neg_div, neg_sq]
  have sqy : (-U 2 / U 0) ^ 2 = (U 2 / U 0) ^ 2 := by rw [neg_div, neg_sq]
  have mx : -U 1 / U 0 * (-U 1 / U 0) = U 1 / U 0 * (U 1 / U 0) := by
    rw [neg_div, neg_mul_neg]
  have my : -U 2 / U 0 * (-U 2 / U 0) = U 2 / U 0 * (U 2 / U 0) := by
    rw [neg_div, neg_mul_neg]
  have ax : |-U 1 / U 0| = |U 1 / U 0| := by rw [neg_div, abs_neg]
  have ay : |-U 2 / U 0| = |U 2 / U 0| := by rw [neg_div, abs_neg]
  refine ⟨⟨?_, ?_, ?_⟩, ⟨?_, ?_, ?_⟩⟩
  · simp [con2prim, wallMirrorX, sqx]
  · simp [compute_lambda, wallMirrorX, mx, ax]
  · simp [dt_local, con2prim, wallMirrorX, sqx, ax]
  · simp [con2prim, wallMirrorY, sqy]
  · simp [compute_lambda, wallMirrorY, my, ay]
  · simp [dt_local, con2prim, wallMirrorY, sqy, ay]

end FDWeno
